import Mathlib

/-!
Verification of the GreedyBear PBS queue balancer (src/tools/GreedyBear.py).

This file gives a shallow embedding of the program's data model and of the
functions `safe_json_str`, `get_queue_info`, `get_user_jobs`,
`parse_arguments`, `HungarianAlgorithm`, `minimize_mismatches`,
`scheduler_balance` and the `main` polling loop, and proves or refutes the
specification's claims about them.

Modelling conventions:
* Python integers are `Int` (arbitrary precision, exact).
* Statements that can raise a Python exception are compiled into `Except PyErr`
  values; the constructors of `PyErr` name the exception class the source
  would raise at that point.
* `while` loops are driven by an explicit fuel parameter; running out of fuel
  yields the distinguished error `PyErr.fuelExhausted`, a model artifact
  (never a Python behaviour) that is proved unreachable wherever a claim
  depends on it.
* Subprocess invocations are modelled by passing the hypothetical
  `subprocess.run` result (`SpResult`) as an explicit argument.
* Character classes of Python's `re` module (`\s`, `\d`) are modelled over
  their ASCII subsets; the non-ASCII members play no role in any claim.
-/

/-- Decidable equality for `Except` results, used to settle concrete runs. -/
instance {e a : Type} [DecidableEq e] [DecidableEq a] : DecidableEq (Except e a)
  | .error x, .error y =>
    match decEq x y with
    | isTrue h => isTrue (by rw [h])
    | isFalse h => isFalse (fun he => h (by cases he; rfl))
  | .error _, .ok _ => isFalse (fun he => Except.noConfusion he)
  | .ok _, .error _ => isFalse (fun he => Except.noConfusion he)
  | .ok x, .ok y =>
    match decEq x y with
    | isTrue h => isTrue (by rw [h])
    | isFalse h => isFalse (fun he => h (by cases he; rfl))

/-- Result of a `subprocess.run` call: exit status and captured output. -/
structure SpResult where
  returncode : Int
  stdout : String
  stderr : String
deriving DecidableEq

/-- One emitted log record: severity and message. -/
structure LogMsg where
  level : String
  msg : String
deriving DecidableEq

/-- Python exceptions that the embedded code can raise, plus two model
artifacts: `fuelExhausted` for the fuel of `while` loops,
`unmodelledFloat` for arithmetic on non-integral JSON numerals (the source
would silently switch to IEEE floats there) and `unmodelledNegIndex` for the
one place the source can build a Python negative index (a missing prime mark
in the Hungarian augmenting path); no claim depends on either. -/
inductive PyErr where
  | typeError
  | attributeError
  | keyError
  | indexError
  | calledProcessError
  | jsonDecodeError
  | zeroDivisionError
  | valueError
  | fuelExhausted
  | unmodelledFloat
  | unmodelledNegIndex
deriving DecidableEq

/-- Mirrors the `Queue` dataclass (GreedyBear.py lines 16-19). -/
structure Queue where
  name : String
  pcpus : Int
deriving DecidableEq

/-- Mirrors the `Job` dataclass (lines 21-28). `queue` is `Option String`
because `get_user_jobs` defaults it to `None` (line 168). -/
structure Job where
  id : String
  name : String
  owner : String
  queue : Option String
  state : String
  ncpus : Int
deriving DecidableEq

/-- Mirrors the `QueueRecord` dataclass (lines 30-35). -/
structure QueueRecord where
  njobq : Nat
  pcpus : Int
  waiting_jobs : List Job
  recv_jobs : List Job
deriving DecidableEq

/-- Mirrors the fields of the `argparse.Namespace` built by `parse_arguments`,
including the `queue_info` attribute attached at line 133. -/
structure Args where
  user : String
  queue : List String
  interval : Int
  scheduler : String
  dry_run : Bool
  queue_info : List (String × Queue)
deriving DecidableEq

/-! ### Python dicts as insertion-ordered association lists

Python dicts preserve insertion order; re-assigning an existing key keeps its
original position and overwrites the value. -/

/-- Dict assignment `d[k] = v`: overwrite in place if the key is present,
append otherwise. -/
def dictInsert {α : Type} (d : List (String × α)) (k : String) (v : α) :
    List (String × α) :=
  match d with
  | [] => [(k, v)]
  | (k', v') :: rest =>
    if k' = k then (k', v) :: rest else (k', v') :: dictInsert rest k v

/-- Dict lookup. -/
def dictGet? {α : Type} (d : List (String × α)) (k : String) : Option α :=
  match d with
  | [] => none
  | (k', v) :: rest => if k' = k then some v else dictGet? rest k

/-- Membership test, as Python's `k in d`. -/
def dictMem {α : Type} (d : List (String × α)) (k : String) : Bool :=
  (dictGet? d k).isSome

/-- Update the value at a key by a function; raises `KeyError` (as Python
subscripting would) when the key is missing. -/
def dictModify {α : Type} (d : List (String × α)) (k : String) (f : α → α) :
    Except PyErr (List (String × α)) :=
  match d with
  | [] => .error .keyError
  | (k', v) :: rest =>
    if k' = k then .ok ((k', f v) :: rest)
    else (dictModify rest k f).map ((k', v) :: ·)

/-- Semantics of `list(dict.fromkeys(l))` (line 114): de-duplicate keeping the
first occurrence of each element. (Filtering the recursive result instead of
the argument yields the same list and keeps the recursion structural.) -/
def dedupKeepFirst : List String → List String
  | [] => []
  | x :: rest => x :: (dedupKeepFirst rest).filter (fun y => y ≠ x)

/-! ### The numeric-literal fixup `safe_json_str` (lines 43-44)

`re.sub(r"([\[:,])(\s*)(-?)(\.\d+)", r"\g<1>\g<2>\g<3>0\g<4>", content)`:
scanning left to right, each occurrence of a lead character `[`, `:` or `,`
followed by whitespace, an optional minus sign and a bare decimal `.digits`
is rewritten with a `0` inserted before the decimal point. The scan is
faithful to `re.sub`: matches never overlap, scanning resumes after each
replaced span, and neither `\s*` nor `\d+` can backtrack here because no
whitespace character is `-` or `.` and the pattern ends after the digits. -/

/-- Lead characters: the regex class `[\[:,]`. -/
def isLead (c : Char) : Bool :=
  c == '[' || c == ':' || c == ','

/-- ASCII subset of the regex class `\s`. -/
def isPyWs (c : Char) : Bool :=
  c == ' ' || c == '\t' || c == '\n' || c == '\r' || c == '\u000B' || c == '\u000C'

/-- ASCII subset of the regex class `\d`. -/
def isPyDigit (c : Char) : Bool :=
  '0' ≤ c && c ≤ '9'

/-- Greedy `\d+` after a recognised sign: returns (sign, digits, rest) or
fails when no digit follows. -/
def tryDigits (neg : List Char) (t : List Char) :
    Option (List Char × List Char × List Char) :=
  match t.takeWhile isPyDigit with
  | [] => none
  | d :: ds => some (neg, d :: ds, t.dropWhile isPyDigit)

/-- Match `(-?)(\.\d+)` at the head of the input. -/
def tryCore : List Char → Option (List Char × List Char × List Char)
  | [] => none
  | c :: [] => if c = '.' then tryDigits [] [] else none
  | c :: c2 :: t2 =>
    if c = '.' then tryDigits [] (c2 :: t2)
    else if c = '-' then
      if c2 = '.' then tryDigits ['-'] t2 else none
    else none

/-- Match `(\s*)(-?)(\.\d+)` at the head of the input: the part of the
pattern after the lead character. Returns (whitespace, sign, digits, rest). -/
def tryMatch : List Char → Option (List Char × List Char × List Char × List Char)
  | [] => none
  | c :: t =>
    if isPyWs c then (tryMatch t).map (fun r => (c :: r.1, r.2))
    else (tryCore (c :: t)).map (fun r => (([] : List Char), r))

theorem tryDigits_eq {neg t neg' ds r}
    (h : tryDigits neg t = some (neg', ds, r)) :
    neg' = neg ∧ ds ++ r = t ∧ ds ≠ [] ∧ (∀ c ∈ ds, isPyDigit c = true) := by
  unfold tryDigits at h
  split at h
  · exact absurd h (by simp)
  · next d ds' heq =>
    simp only [Option.some.injEq, Prod.mk.injEq] at h
    obtain ⟨h1, h2, h3⟩ := h
    subst h1; subst h2; subst h3
    refine ⟨rfl, ?_, by simp, ?_⟩
    · rw [← heq]; exact List.takeWhile_append_dropWhile isPyDigit t
    · intro c hc; rw [← heq] at hc; exact List.mem_takeWhile_imp hc

theorem tryCore_eq {l neg ds r} (h : tryCore l = some (neg, ds, r)) :
    l = neg ++ '.' :: (ds ++ r) ∧ ds ≠ [] ∧ (neg = [] ∨ neg = ['-']) ∧
      (∀ c ∈ ds, isPyDigit c = true) := by
  match l with
  | [] => exact absurd h (by simp [tryCore])
  | [c] =>
    simp only [tryCore] at h
    split_ifs at h with h1
    exact absurd h (by simp [tryDigits])
  | c :: c2 :: t2 =>
    simp only [tryCore] at h
    split_ifs at h with h1 h2 h3
    · obtain ⟨e1, e2, e3, e4⟩ := tryDigits_eq h
      subst h1; subst e1
      exact ⟨by rw [e2]; simp, e3, Or.inl rfl, e4⟩
    · obtain ⟨e1, e2, e3, e4⟩ := tryDigits_eq h
      subst h2; subst h3; subst e1
      exact ⟨by rw [e2]; simp, e3, Or.inr rfl, e4⟩

theorem tryMatch_eq {l ws neg ds r} (h : tryMatch l = some (ws, neg, ds, r)) :
    l = ws ++ neg ++ '.' :: (ds ++ r) ∧ ds ≠ [] ∧ (neg = [] ∨ neg = ['-']) ∧
      (∀ c ∈ ws, isPyWs c = true) ∧ (∀ c ∈ ds, isPyDigit c = true) := by
  induction l generalizing ws with
  | nil => exact absurd h (by simp [tryMatch])
  | cons c t ih =>
    unfold tryMatch at h
    split_ifs at h with hws
    · rw [Option.map_eq_some'] at h
      obtain ⟨⟨ws', neg', ds', r'⟩, hm, he⟩ := h
      simp only [Prod.mk.injEq] at he
      obtain ⟨he1, he2, he3, he4⟩ := he
      subst he1; subst he2; subst he3; subst he4
      obtain ⟨e1, e2, e3, e4, e5⟩ := ih hm
      refine ⟨?_, e2, e3, ?_, e5⟩
      · subst e1; simp
      · intro x hx
        rcases List.mem_cons.mp hx with hx | hx
        · exact hx ▸ hws
        · exact e4 x hx
    · rw [Option.map_eq_some'] at h
      obtain ⟨⟨neg', ds', r'⟩, hm, he⟩ := h
      simp only [Prod.mk.injEq] at he
      obtain ⟨he1, he2, he3, he4⟩ := he
      subst he1; subst he2; subst he3; subst he4
      obtain ⟨e1, e2, e3, e4⟩ := tryCore_eq hm
      exact ⟨by simpa using e1, e2, e3, by simp, e4⟩

theorem tryMatch_len {l ws neg ds r} (h : tryMatch l = some (ws, neg, ds, r)) :
    l.length = ws.length + neg.length + 1 + ds.length + r.length := by
  obtain ⟨e1, -, -, -, -⟩ := tryMatch_eq h
  subst e1
  simp [List.length_append]
  omega

/-- The left-to-right, non-overlapping substitution performed by `re.sub`
with the fixup pattern, over the character list of the input. -/
def subChars : List Char → List Char
  | [] => []
  | c :: t =>
    if isLead c then
      match _h : tryMatch t with
      | some (ws, neg, ds, r) => c :: (ws ++ neg ++ '0' :: '.' :: (ds ++ subChars r))
      | none => c :: subChars t
    else c :: subChars t
termination_by l => l.length
decreasing_by
  · have := tryMatch_len _h
    simp only [List.length_cons]
    omega
  · simp
  · simp

/-- Number of (non-overlapping) occurrences of the fixup pattern, counted by
the same scan as `subChars`. -/
def countMatches : List Char → Nat
  | [] => 0
  | c :: t =>
    if isLead c then
      match _h : tryMatch t with
      | some (_, _, _, r) => 1 + countMatches r
      | none => countMatches t
    else countMatches t
termination_by l => l.length
decreasing_by
  · have := tryMatch_len _h
    simp only [List.length_cons]
    omega
  · simp
  · simp

/-- Embedding of `safe_json_str` (lines 43-44). -/
def safe_json_str (content : String) : String :=
  String.mk (subChars content.data)

theorem subChars_nil : subChars [] = [] := by rw [subChars]

theorem countMatches_nil : countMatches [] = 0 := by rw [countMatches]

theorem isLead_false_of_isPyWs {c : Char} (h : isPyWs c = true) : isLead c = false := by
  simp only [isPyWs, Bool.or_eq_true, beq_iff_eq] at h
  rcases h with ((((h | h) | h) | h) | h) | h <;> subst h <;> decide

theorem isLead_false_of_isPyDigit {c : Char} (h : isPyDigit c = true) :
    isLead c = false := by
  simp only [isPyDigit, Bool.and_eq_true, decide_eq_true_eq] at h
  simp only [isLead, Bool.or_eq_false_iff, beq_eq_false_iff_ne, ne_eq]
  refine ⟨⟨?_, ?_⟩, ?_⟩ <;> rintro rfl <;> revert h <;> decide

theorem isLead_props {c : Char} (h : isLead c = true) :
    isPyWs c = false ∧ c ≠ '.' ∧ c ≠ '-' := by
  simp only [isLead, Bool.or_eq_true, beq_iff_eq] at h
  rcases h with (h | h) | h <;> subst h <;> exact ⟨by decide, by decide, by decide⟩

theorem subChars_cons_shape (c : Char) (t : List Char) :
    ∃ Y, subChars (c :: t) = c :: Y := by
  rw [subChars]
  split_ifs with h
  · rcases htm : tryMatch t with - | ⟨ws, neg, ds, r⟩
    · exact ⟨subChars t, by simp [htm]⟩
    · exact ⟨ws ++ neg ++ '0' :: '.' :: (ds ++ subChars r), by simp [htm]⟩
  · exact ⟨subChars t, rfl⟩

theorem subChars_head? (l : List Char) : (subChars l).head? = l.head? := by
  cases l with
  | nil => rw [subChars_nil]
  | cons c t =>
    obtain ⟨Y, hY⟩ := subChars_cons_shape c t
    rw [hY]
    rfl

theorem tryDigits_none_iff (neg y : List Char) :
    tryDigits neg y = none ↔ y.takeWhile isPyDigit = [] := by
  unfold tryDigits
  split <;> simp_all

theorem takeWhile_digit_sub {y : List Char} (h : y.takeWhile isPyDigit = []) :
    (subChars y).takeWhile isPyDigit = [] := by
  cases y with
  | nil => rw [subChars_nil]; rfl
  | cons d t =>
    rw [List.takeWhile_cons] at h
    split_ifs at h with hd
    obtain ⟨Y, hY⟩ := subChars_cons_shape d t
    rw [hY, List.takeWhile_cons, if_neg hd]

theorem tryCore_dot (t : List Char) : tryCore ('.' :: t) = tryDigits [] t := by
  cases t <;> simp [tryCore]

theorem tryCore_none_head {c : Char} (X : List Char) (h1 : c ≠ '.') (h2 : c ≠ '-') :
    tryCore (c :: X) = none := by
  cases X <;> simp [tryCore, h1, h2]

theorem tryMatch_cons_not_ws {c : Char} (t : List Char) (h : isPyWs c = false) :
    tryMatch (c :: t) = (tryCore (c :: t)).map (fun r => (([] : List Char), r)) := by
  simp only [tryMatch, h, Bool.false_eq_true, if_false]

theorem tryMatch_cons_ws {c : Char} (t : List Char) (h : isPyWs c = true) :
    tryMatch (c :: t) = (tryMatch t).map (fun r => (c :: r.1, r.2)) := by
  simp only [tryMatch, h, if_true]

theorem tryMatch_span_none (ws neg X : List Char)
    (hws : ∀ c ∈ ws, isPyWs c = true) (hneg : neg = [] ∨ neg = ['-']) :
    tryMatch (ws ++ neg ++ '0' :: X) = none := by
  induction ws with
  | nil =>
    rcases hneg with h | h <;> subst h
    · rw [List.nil_append, List.nil_append,
        tryMatch_cons_not_ws _ (by decide),
        tryCore_none_head X (by decide) (by decide)]
      rfl
    · rw [List.nil_append, List.cons_append, List.nil_append,
        tryMatch_cons_not_ws _ (by decide)]
      have hc : tryCore ('-' :: '0' :: X) = none := by
        simp +decide [tryCore]
      rw [hc]
      rfl
  | cons w ws' ih =>
    have hw : isPyWs w = true := hws w (List.mem_cons_self w ws')
    have hre : (w :: ws') ++ neg ++ '0' :: X = w :: (ws' ++ neg ++ '0' :: X) := by
      simp
    rw [hre, tryMatch_cons_ws _ hw,
      ih (fun c hc => hws c (List.mem_cons_of_mem w hc))]
    rfl

theorem tryCore_none_sub {c : Char} {t : List Char} (h : tryCore (c :: t) = none) :
    tryCore (c :: subChars t) = none := by
  by_cases h1 : c = '.'
  · subst h1
    rw [tryCore_dot, tryDigits_none_iff] at h
    rw [tryCore_dot, tryDigits_none_iff]
    exact takeWhile_digit_sub h
  · by_cases h2 : c = '-'
    · subst h2
      cases t with
      | nil => rw [subChars_nil]; exact h
      | cons c2 t2 =>
        by_cases h3 : c2 = '.'
        · subst h3
          simp +decide [tryCore] at h
          rw [tryDigits_none_iff] at h
          have hs : subChars ('.' :: t2) = '.' :: subChars t2 := by
            rw [subChars, if_neg (by decide)]
          rw [hs]
          simp +decide [tryCore]
          rw [tryDigits_none_iff]
          exact takeWhile_digit_sub h
        · obtain ⟨Y, hY⟩ := subChars_cons_shape c2 t2
          rw [hY]
          simp [tryCore, h3]
    · exact tryCore_none_head _ h1 h2

theorem tryMatch_none_sub {l : List Char} (h : tryMatch l = none) :
    tryMatch (subChars l) = none := by
  induction l using subChars.induct with
  | case1 => rw [subChars_nil]; exact h
  | case2 c t hlead ws neg ds r htm ih =>
    rw [subChars, if_pos hlead, htm]
    obtain ⟨hnw, hnd, hnm⟩ := isLead_props hlead
    rw [tryMatch_cons_not_ws _ hnw, tryCore_none_head _ hnd hnm]
    rfl
  | case3 c t hlead htm ih =>
    rw [subChars, if_pos hlead, htm]
    obtain ⟨hnw, hnd, hnm⟩ := isLead_props hlead
    rw [tryMatch_cons_not_ws _ hnw, tryCore_none_head _ hnd hnm]
    rfl
  | case4 c t hlead ih =>
    rw [subChars, if_neg hlead]
    by_cases hws : isPyWs c
    · rw [tryMatch_cons_ws _ hws] at h ⊢
      rw [Option.map_eq_none'] at h
      rw [ih h]
      rfl
    · rw [tryMatch_cons_not_ws _ (by simpa using hws)] at h ⊢
      rw [Option.map_eq_none'] at h
      rw [tryCore_none_sub h]
      rfl

theorem countMatches_cons_lead_some {c : Char} {t ws neg ds r : List Char}
    (hlead : isLead c = true) (htm : tryMatch t = some (ws, neg, ds, r)) :
    countMatches (c :: t) = 1 + countMatches r := by
  rw [countMatches, if_pos hlead, htm]

theorem countMatches_cons_lead_none {c : Char} {t : List Char}
    (hlead : isLead c = true) (htm : tryMatch t = none) :
    countMatches (c :: t) = countMatches t := by
  rw [countMatches, if_pos hlead, htm]

theorem countMatches_cons_nonlead {c : Char} {t : List Char}
    (hlead : isLead c = false) :
    countMatches (c :: t) = countMatches t := by
  rw [countMatches, if_neg (by simp [hlead])]

theorem subChars_cons_lead_some {c : Char} {t ws neg ds r : List Char}
    (hlead : isLead c = true) (htm : tryMatch t = some (ws, neg, ds, r)) :
    subChars (c :: t) = c :: (ws ++ neg ++ '0' :: '.' :: (ds ++ subChars r)) := by
  rw [subChars, if_pos hlead, htm]

theorem subChars_cons_lead_none {c : Char} {t : List Char}
    (hlead : isLead c = true) (htm : tryMatch t = none) :
    subChars (c :: t) = c :: subChars t := by
  rw [subChars, if_pos hlead, htm]

theorem subChars_cons_nonlead {c : Char} {t : List Char}
    (hlead : isLead c = false) :
    subChars (c :: t) = c :: subChars t := by
  rw [subChars, if_neg (by simp [hlead])]

theorem countMatches_nonlead_prefix (pre X : List Char)
    (h : ∀ c ∈ pre, isLead c = false) :
    countMatches (pre ++ X) = countMatches X := by
  induction pre with
  | nil => rfl
  | cons c p' ih =>
    rw [List.cons_append,
      countMatches_cons_nonlead (h c (List.mem_cons_self c p')),
      ih (fun x hx => h x (List.mem_cons_of_mem c hx))]

theorem countMatches_subChars (l : List Char) : countMatches (subChars l) = 0 := by
  induction l using subChars.induct with
  | case1 => rw [subChars_nil, countMatches_nil]
  | case2 c t hlead ws neg ds r htm ih =>
    rw [subChars_cons_lead_some hlead htm]
    obtain ⟨-, e2, e3, e4, e5⟩ := tryMatch_eq htm
    have hspan : tryMatch (ws ++ neg ++ '0' :: ('.' :: (ds ++ subChars r))) = none :=
      tryMatch_span_none ws neg _ e4 e3
    rw [countMatches_cons_lead_none hlead hspan]
    have hre : ws ++ neg ++ '0' :: '.' :: (ds ++ subChars r) =
        (ws ++ neg ++ '0' :: '.' :: ds) ++ subChars r := by
      simp
    rw [hre, countMatches_nonlead_prefix _ _ ?_, ih]
    intro x hx
    simp only [List.mem_append, List.mem_cons] at hx
    rcases hx with (hx | hx) | hx | hx | hx
    · exact isLead_false_of_isPyWs (e4 x hx)
    · rcases e3 with h3 | h3 <;> subst h3
      · simp at hx
      · simp only [List.mem_singleton] at hx
        subst hx
        decide
    · subst hx; decide
    · subst hx; decide
    · exact isLead_false_of_isPyDigit (e5 x hx)
  | case3 c t hlead htm ih =>
    rw [subChars_cons_lead_none hlead htm,
      countMatches_cons_lead_none hlead (tryMatch_none_sub htm), ih]
  | case4 c t hlead ih =>
    rw [subChars_cons_nonlead (by simpa using hlead),
      countMatches_cons_nonlead (by simpa using hlead), ih]

theorem subChars_of_countMatches_zero {l : List Char}
    (h : countMatches l = 0) : subChars l = l := by
  induction l using subChars.induct with
  | case1 => rw [subChars_nil]
  | case2 c t hlead ws neg ds r htm ih =>
    rw [countMatches_cons_lead_some hlead htm] at h
    omega
  | case3 c t hlead htm ih =>
    rw [countMatches_cons_lead_none hlead htm] at h
    rw [subChars_cons_lead_none hlead htm, ih h]
  | case4 c t hlead ih =>
    rw [countMatches_cons_nonlead (by simpa using hlead)] at h
    rw [subChars_cons_nonlead (by simpa using hlead), ih h]

theorem length_subChars (l : List Char) :
    (subChars l).length = l.length + countMatches l := by
  induction l using subChars.induct with
  | case1 => rw [subChars_nil, countMatches_nil]; rfl
  | case2 c t hlead ws neg ds r htm ih =>
    rw [subChars_cons_lead_some hlead htm, countMatches_cons_lead_some hlead htm]
    have hlen := tryMatch_len htm
    simp only [List.length_cons, List.length_append]
    omega
  | case3 c t hlead htm ih =>
    rw [subChars_cons_lead_none hlead htm, countMatches_cons_lead_none hlead htm]
    simp only [List.length_cons]
    omega
  | case4 c t hlead ih =>
    rw [subChars_cons_nonlead (by simpa using hlead),
      countMatches_cons_nonlead (by simpa using hlead)]
    simp only [List.length_cons]
    omega

/-- Fuel-structural twin of `countMatches`, kernel-computable on concrete
inputs; `countMatchesF_eq` identifies it with `countMatches` at adequate
fuel. -/
def countMatchesF : Nat → List Char → Nat
  | 0, _ => 0
  | _, [] => 0
  | f + 1, c :: t =>
    if isLead c then
      match tryMatch t with
      | some (_, _, _, r) => 1 + countMatchesF f r
      | none => countMatchesF f t
    else countMatchesF f t

theorem countMatchesF_eq : ∀ (l : List Char) (f : Nat), l.length ≤ f →
    countMatchesF f l = countMatches l := by
  intro l
  induction l using countMatches.induct with
  | case1 =>
    intro f _
    rw [countMatches_nil]
    cases f <;> rfl
  | case2 c t hlead ws neg ds r htm ih =>
    intro f hf
    match f, hf with
    | f' + 1, hf =>
      rw [countMatches_cons_lead_some hlead htm]
      have hlen := tryMatch_len htm
      simp only [List.length_cons] at hf
      rw [show countMatchesF (f' + 1) (c :: t) =
        1 + countMatchesF f' r from by rw [countMatchesF, if_pos hlead, htm]]
      rw [ih f' (by omega)]
  | case3 c t hlead htm ih =>
    intro f hf
    match f, hf with
    | f' + 1, hf =>
      rw [countMatches_cons_lead_none hlead htm]
      simp only [List.length_cons] at hf
      rw [show countMatchesF (f' + 1) (c :: t) =
        countMatchesF f' t from by rw [countMatchesF, if_pos hlead, htm]]
      rw [ih f' (by omega)]
  | case4 c t hlead ih =>
    intro f hf
    match f, hf with
    | f' + 1, hf =>
      rw [countMatches_cons_nonlead (by simpa using hlead)]
      simp only [List.length_cons] at hf
      rw [show countMatchesF (f' + 1) (c :: t) =
        countMatchesF f' t from by
          rw [countMatchesF, if_neg (by simpa using hlead)]]
      rw [ih f' (by omega)]

/-- Evaluation form: `countMatches` equals its kernel-computable twin at fuel
equal to the input length. -/
theorem countMatches_eval (l : List Char) :
    countMatches l = countMatchesF l.length l :=
  (countMatchesF_eq l l.length (Nat.le_refl _)).symm

/-- Embedding of `safe_json_str` evaluated on character lists is available via
`subChars`; the string-level function is `safe_json_str` above. -/
theorem safe_json_str_data (s : String) :
    (safe_json_str s).data = subChars s.data := rfl

/-! ### JSON values and `json.loads`

The collectors parse tool output with `json.loads` (lines 58 and 156). The
parser below implements the RFC 8259 grammar that `json.loads` accepts, with
these immaterial-to-the-claims simplifications, each noted where it occurs:
numerals are kept exact as `mant * 10 ^ exp10` instead of IEEE floats,
`\u` escapes become single code units without surrogate pairing, and the
Python extension literals `NaN`/`Infinity` are omitted. Objects are built
with Python dict semantics (first position, last value, for duplicate
keys). -/

inductive JValue where
  | null
  | bool (b : Bool)
  | num (mant : Int) (exp10 : Int)
  | str (s : String)
  | arr (elems : List JValue)
  | obj (fields : List (String × JValue))

/-- JSON insignificant whitespace (RFC 8259: space, tab, line feed, carriage
return; the same set `json.loads` skips). -/
def isJsonWs (c : Char) : Bool :=
  c == ' ' || c == '\t' || c == '\n' || c == '\r'

/-- Hexadecimal digit value. -/
def hexVal? (c : Char) : Option Nat :=
  if '0' ≤ c ∧ c ≤ '9' then some (c.toNat - '0'.toNat)
  else if 'a' ≤ c ∧ c ≤ 'f' then some (c.toNat - 'a'.toNat + 10)
  else if 'A' ≤ c ∧ c ≤ 'F' then some (c.toNat - 'A'.toNat + 10)
  else none

/-- Parse the body of a JSON string literal after the opening quote. Control
characters below 0x20 are rejected, as `json.loads` does in its default
strict mode. -/
def pStringBody : Nat → List Char → Option (List Char × List Char)
  | 0, _ => none
  | _, [] => none
  | f + 1, c :: rest =>
    if c = '"' then some ([], rest)
    else if c = '\\' then
      match rest with
      | [] => none
      | e :: rest2 =>
        if e = 'u' then
          match rest2 with
          | h1 :: h2 :: h3 :: h4 :: rest3 =>
            match hexVal? h1, hexVal? h2, hexVal? h3, hexVal? h4 with
            | some v1, some v2, some v3, some v4 =>
              (pStringBody f rest3).map
                (fun r => (Char.ofNat (((v1 * 16 + v2) * 16 + v3) * 16 + v4) :: r.1, r.2))
            | _, _, _, _ => none
          | _ => none
        else
          match
            (if e = '"' then some '"'
             else if e = '\\' then some '\\'
             else if e = '/' then some '/'
             else if e = 'b' then some '\x08'
             else if e = 'f' then some '\x0C'
             else if e = 'n' then some '\n'
             else if e = 'r' then some '\x0D'
             else if e = 't' then some '\t'
             else none) with
          | some d => (pStringBody f rest2).map (fun r => (d :: r.1, r.2))
          | none => none
    else if c.toNat < 32 then none
    else (pStringBody f rest).map (fun r => (c :: r.1, r.2))

/-- Digit-string to natural number. -/
def digitsToNat (ds : List Char) : Nat :=
  ds.foldl (fun a c => a * 10 + (c.toNat - '0'.toNat)) 0

/-- Parse a JSON numeral: `-? (0 | [1-9][0-9]*) (. [0-9]+)? ([eE][+-]?[0-9]+)?`,
returning its exact value as mantissa and power of ten. -/
def pNumber (l : List Char) : Option (JValue × List Char) :=
  let (negs, l1) :=
    match l with
    | '-' :: t => ((-1 : Int), t)
    | _ => ((1 : Int), l)
  let ip := l1.takeWhile isPyDigit
  let l2 := l1.dropWhile isPyDigit
  if ip = [] then none
  else if ip.length > 1 ∧ ip.head? = some '0' then none
  else
    let (fr, l3) :=
      match l2 with
      | '.' :: t =>
        (t.takeWhile isPyDigit, t.dropWhile isPyDigit)
      | _ => ([], l2)
    if (l2.head? = some '.') ∧ fr = [] then none
    else
      let mant : Int := negs * (digitsToNat (ip ++ fr) : Int)
      match l3 with
      | 'e' :: t | 'E' :: t =>
        let (esign, t1) :=
          match t with
          | '+' :: t' => ((1 : Int), t')
          | '-' :: t' => ((-1 : Int), t')
          | _ => ((1 : Int), t)
        let eds := t1.takeWhile isPyDigit
        if eds = [] then none
        else some (.num mant (esign * (digitsToNat eds : Int) - fr.length), t1.dropWhile isPyDigit)
      | _ => some (.num mant (0 - fr.length), l3)

/-- Python dict construction from a sequence of key-value pairs in order. -/
def pairsToDict (ps : List (String × JValue)) : List (String × JValue) :=
  ps.foldl (fun d p => dictInsert d p.1 p.2) []

mutual

/-- Parse a JSON value after skipping leading whitespace; fuel bounds the
recursion depth and is generous enough for every input in this file. -/
def pValue : Nat → List Char → Option (JValue × List Char)
  | 0, _ => none
  | f + 1, l =>
    match l.dropWhile isJsonWs with
    | [] => none
    | c :: t =>
      if c = '"' then
        (pStringBody (t.length + 1) t).map (fun r => (.str (String.mk r.1), r.2))
      else if c = '[' then
        match t.dropWhile isJsonWs with
        | ']' :: t2 => some (.arr [], t2)
        | _ =>
          match pValue f t with
          | none => none
          | some (v, r1) => (pArrTail f r1).map (fun r => (.arr (v :: r.1), r.2))
      else if c = '{' then
        match t.dropWhile isJsonWs with
        | '}' :: t2 => some (.obj [], t2)
        | _ =>
          match pMember f t with
          | none => none
          | some (kv, r1) =>
            (pObjTail f r1).map (fun r => (.obj (pairsToDict (kv :: r.1)), r.2))
      else if c = 't' then
        match t with
        | 'r' :: 'u' :: 'e' :: t2 => some (.bool true, t2)
        | _ => none
      else if c = 'f' then
        match t with
        | 'a' :: 'l' :: 's' :: 'e' :: t2 => some (.bool false, t2)
        | _ => none
      else if c = 'n' then
        match t with
        | 'u' :: 'l' :: 'l' :: t2 => some (.null, t2)
        | _ => none
      else pNumber (c :: t)

/-- Parse the rest of an array after one element: `, value`* `]`. -/
def pArrTail : Nat → List Char → Option (List JValue × List Char)
  | 0, _ => none
  | f + 1, l =>
    match l.dropWhile isJsonWs with
    | ']' :: t => some ([], t)
    | ',' :: t =>
      match pValue f t with
      | none => none
      | some (v, r1) => (pArrTail f r1).map (fun r => (v :: r.1, r.2))
    | _ => none

/-- Parse one `"key" : value` object member. -/
def pMember : Nat → List Char → Option ((String × JValue) × List Char)
  | 0, _ => none
  | f + 1, l =>
    match l.dropWhile isJsonWs with
    | '"' :: t =>
      match pStringBody (t.length + 1) t with
      | none => none
      | some (k, r1) =>
        match r1.dropWhile isJsonWs with
        | ':' :: t2 => (pValue f t2).map (fun r => ((String.mk k, r.1), r.2))
        | _ => none
    | _ => none

/-- Parse the rest of an object after one member: `, member`* `}`. -/
def pObjTail : Nat → List Char → Option (List (String × JValue) × List Char)
  | 0, _ => none
  | f + 1, l =>
    match l.dropWhile isJsonWs with
    | '}' :: t => some ([], t)
    | ',' :: t =>
      match pMember f t with
      | none => none
      | some (kv, r1) => (pObjTail f r1).map (fun r => (kv :: r.1, r.2))
    | _ => none

end

/-- Embedding of `json.loads`: parse one value, require only whitespace after
it. `none` models a raised `json.JSONDecodeError`. -/
def json_loads (s : String) : Option JValue :=
  match pValue (8 * s.length + 64) s.data with
  | some (v, rest) => if rest.dropWhile isJsonWs = [] then some v else none
  | none => none

/-- Validity of a string as JSON, as accepted by `json.loads`. -/
def jsonValid (s : String) : Bool :=
  (json_loads s).isSome

theorem string_mk_data (s : String) : String.mk s.data = s := rfl

theorem safe_json_str_eq_self_iff (s : String) :
    safe_json_str s = s ↔ countMatches s.data = 0 := by
  constructor
  · intro h
    have hd : subChars s.data = s.data := congrArg String.data h
    have hl := length_subChars s.data
    rw [hd] at hl
    omega
  · intro h
    rw [safe_json_str, subChars_of_countMatches_zero h, string_mk_data]

/-- C8 (counterexample): the numeric-literal fixup is not a no-op on every
already-valid JSON text. The string `[",.5"]` is valid JSON (an array holding
one string), yet `safe_json_str` rewrites the `,.5` occurrence inside the
string literal. -/
theorem safe_json_str_changes_valid_json :
    jsonValid "[\",.5\"]" = true ∧ safe_json_str "[\",.5\"]" ≠ "[\",.5\"]" := by
  refine ⟨by decide, fun h => ?_⟩
  have := (safe_json_str_eq_self_iff _).mp h
  rw [countMatches_eval] at this
  exact absurd this (by decide)

/-- C8 (amended): `safe_json_str` is a no-op exactly on the strings containing
no occurrence of the pattern (lead character, whitespace, optional minus,
bare decimal) — in particular on valid JSON whose string literals avoid such
occurrences — and on any other string it only inserts one `0` per occurrence,
growing the length by the number of occurrences and never altering the
surrounding characters. -/
theorem safe_json_str_fixup_characterization (s : String) :
    (safe_json_str s = s ↔ countMatches s.data = 0) ∧
      (safe_json_str s).length = s.length + countMatches s.data :=
  ⟨safe_json_str_eq_self_iff s, length_subChars s.data⟩

/-- C9: the numeric-literal fixup is idempotent: applying `safe_json_str`
twice gives the same result as applying it once, because the substitution
never creates a new occurrence of the pattern. -/
theorem safe_json_str_idempotent (s : String) :
    safe_json_str (safe_json_str s) = safe_json_str s := by
  rw [show safe_json_str (safe_json_str s) =
      String.mk (subChars (subChars s.data)) from rfl,
    subChars_of_countMatches_zero (countMatches_subChars s.data)]
  rfl

/-! ### Collectors (lines 47-64 and 138-173)

`get_queue_info` invokes `subprocess.run` with `check=True`, so a non-zero
exit status raises `CalledProcessError` before any output is inspected.
`get_user_jobs` invokes it with `check=False` and handles the non-zero case
itself. JSON numerals are extracted exactly; a numeral with a fractional
value would make the source fall into IEEE float arithmetic, modelled as the
artifact error `unmodelledFloat` (no claim involves such inputs). -/

/-- Exact integer value of a JSON numeral `mant * 10 ^ exp10`, when it is an
integer. -/
def jintOfNum? (mant exp10 : Int) : Option Int :=
  if 0 ≤ exp10 then some (mant * 10 ^ exp10.toNat)
  else if mant % ((10 : Int) ^ (-exp10).toNat) = 0 then
    some (mant / (10 : Int) ^ (-exp10).toNat)
  else none

/-- Python `d.get(k, dflt)` for string-valued fields. The source would store a
non-string value unchanged; no claim reads such a field, and the default is
used in that unmodelled case. -/
def jstrD (fs : List (String × JValue)) (k dflt : String) : String :=
  match dictGet? fs k with
  | some (.str s) => s
  | _ => dflt

/-- Python `d.get(k, None)` for the `queue` field. -/
def jstrOpt (fs : List (String × JValue)) (k : String) : Option String :=
  match dictGet? fs k with
  | some (.str s) => some s
  | _ => none

/-- Python `d.get(k, dflt)` for integer-valued fields. -/
def jintD (fs : List (String × JValue)) (k : String) (dflt : Int) : Int :=
  match dictGet? fs k with
  | some (.num m e) => (jintOfNum? m e).getD dflt
  | _ => dflt

/-- Embedding of `get_queue_info` (lines 47-64). `sp` is the result the
`pbsnodes -a -F json` subprocess would produce. `check=True` makes a non-zero
exit raise `CalledProcessError`; `json.loads` failure raises
`JSONDecodeError`; missing `nodes`/`queue`/`pcpus` keys raise `KeyError`;
non-dict values raise `TypeError`/`AttributeError` exactly where Python
subscripting or `.items()` would. -/
def get_queue_info (queues : List String) (dry_run : Bool) (sp : SpResult) :
    Except PyErr (List LogMsg × List (String × Queue)) :=
  let queue_info : List (String × Queue) :=
    queues.foldl (fun d q => dictInsert d q (Queue.mk q 0)) []
  if dry_run then .ok ([⟨"INFO", "dry run: pbsnodes -a -F json"⟩], queue_info)
  else if sp.returncode ≠ 0 then .error .calledProcessError
  else
    match json_loads (safe_json_str sp.stdout) with
    | none => .error .jsonDecodeError
    | some (.obj fields) =>
      match dictGet? fields "nodes" with
      | none => .error .keyError
      | some (.obj nfields) =>
        (nfields.foldlM (fun (qi : List (String × Queue)) (kv : String × JValue) =>
          match kv.2 with
          | .obj ifields =>
            match dictGet? ifields "queue" with
            | none => Except.error PyErr.keyError
            | some (.str qn) =>
              if qn ∈ queues then
                match dictGet? ifields "pcpus" with
                | none => Except.error PyErr.keyError
                | some (.num m e) =>
                  match jintOfNum? m e with
                  | some v =>
                    dictModify qi qn (fun q => { q with pcpus := q.pcpus + v })
                  | none => Except.error PyErr.unmodelledFloat
                | some (.bool b) =>
                  dictModify qi qn
                    (fun q => { q with pcpus := q.pcpus + (if b then 1 else 0) })
                | some _ => Except.error PyErr.typeError
              else Except.ok qi
            | some _ => Except.ok qi
          | _ => Except.error PyErr.typeError) queue_info).map (fun qi => ([], qi))
      | some _ => .error .attributeError
    | some _ => .error .typeError

/-- Embedding of `get_user_jobs` (lines 138-173). `qstatFound` models whether
`shutil.which("qstat")` succeeded; `sp` is the `qstat -f -F json` subprocess
result. A non-zero exit logs the captured stderr and yields no jobs; a parse
failure logs an error and proceeds with an empty mapping. -/
def get_user_jobs (user : String) (qstatFound : Bool) (sp : SpResult) :
    Except PyErr (List LogMsg × List Job) :=
  if qstatFound = false then
    .ok ([⟨"INFO", "qstat not found: qstat -f -F json"⟩], [])
  else if sp.returncode ≠ 0 then
    .ok ([⟨"WARNING", sp.stderr⟩], [])
  else
    let parsed := json_loads (safe_json_str sp.stdout)
    let logs : List LogMsg :=
      match parsed with
      | some _ => []
      | none => [⟨"ERROR", "failed to parse json"⟩]
    let resp : JValue := (parsed).getD (JValue.obj [])
    match resp with
    | .obj rfields =>
      match (dictGet? rfields "Jobs").getD (JValue.obj []) with
      | .obj jfields =>
        (jfields.foldlM (fun (acc : List Job) (kv : String × JValue) =>
          match kv.2 with
          | .obj vf =>
            match
              (match dictGet? vf "Job_Owner" with
               | some (.str ow) => Except.ok ow
               | none => Except.ok ""
               | some _ => Except.error PyErr.attributeError) with
            | .error e => Except.error e
            | .ok ow =>
              if user.isPrefixOf ow then
                match (dictGet? vf "Resource_List").getD (JValue.obj []) with
                | .obj rlf =>
                  Except.ok (acc ++ [Job.mk kv.1
                    (jstrD vf "Job_Name" "unknown")
                    (jstrD vf "Job_Owner" "unknown")
                    (jstrOpt vf "queue")
                    (jstrD vf "job_state" "?")
                    (jintD rlf "ncpus" 1)])
                | _ => Except.error PyErr.attributeError
              else Except.ok acc
          | _ => Except.error PyErr.attributeError) []).map (fun jobs => (logs, jobs))
      | _ => .error .attributeError
    | _ => .error .attributeError

/-- Embedding of `parse_arguments` (lines 67-135): the queue list is
de-duplicated preserving order (line 114) and the startup capacity snapshot
is attached as `queue_info` (line 133), collected once with
`dry_run or not __PBSND__` as the effective dry-run flag. -/
def parse_arguments (user : String) (rawQueues : List String) (interval : Int)
    (scheduler : String) (dry_run : Bool) (pbsFound : Bool) (pbsSp : SpResult) :
    Except PyErr Args :=
  let queues := dedupKeepFirst rawQueues
  (get_queue_info queues (dry_run || !pbsFound) pbsSp).map
    (fun r => Args.mk user queues interval scheduler dry_run r.2)

/-- C5 (counterexample): the topology query collector does not absorb a
non-zero exit status: `get_queue_info` invokes the tool with `check=True`
(line 57), so the failure raises `CalledProcessError` out of the collector
instead of yielding a zeroed result. -/
theorem get_queue_info_raises_on_nonzero_exit :
    get_queue_info ["A"] false ⟨1, "", "boom"⟩ = .error .calledProcessError := rfl

/-- C5 (amended): only the job-listing collector handles a non-zero tool exit
as claimed — `get_user_jobs` logs the captured stderr at warning severity and
yields an empty job list without raising — while `get_queue_info` raises
`CalledProcessError` out of the collector for any non-zero exit. -/
theorem collectors_nonzero_exit (user : String) (qs : List String)
    (sp : SpResult) (h : sp.returncode ≠ 0) :
    get_user_jobs user true sp = .ok ([⟨"WARNING", sp.stderr⟩], []) ∧
      get_queue_info qs false sp = .error .calledProcessError := by
  constructor
  · rw [get_user_jobs]
    simp [h]
  · rw [get_queue_info]
    simp [h]

theorem collectors_nonzero_exit_witness :
    get_user_jobs "alice" true ⟨2, "out", "err"⟩ =
        .ok ([⟨"WARNING", "err"⟩], []) ∧
      get_queue_info ["A"] false ⟨2, "out", "err"⟩ =
        .error .calledProcessError :=
  collectors_nonzero_exit "alice" ["A"] ⟨2, "out", "err"⟩ (by decide)

/-! ### The Hungarian solver (`HungarianAlgorithm`, lines 192-349)

The object state is one record; the matrix, cover vectors and mark matrix are
modelled as functions updated pointwise, the step methods as functions from
state to state, and `solve`'s `while` dispatch as a fuel-driven loop.
`zeros_pos` (line 202) is initialised and never used, so it is omitted. -/

structure HState where
  n : Nat
  m : Nat
  cost : Nat → Nat → Int
  row_covered : Nat → Bool
  col_covered : Nat → Bool
  marked : Nat → Nat → Nat
  path : List (Nat × Nat)

/-- Pointwise update of a boolean vector. -/
def upd1 (f : Nat → Bool) (i : Nat) (v : Bool) : Nat → Bool :=
  fun j => if j = i then v else f j

/-- Pointwise update of a mark matrix. -/
def upd2 (f : Nat → Nat → Nat) (a b : Nat) (v : Nat) : Nat → Nat → Nat :=
  fun i j => if i = a ∧ j = b then v else f i j

/-- `__init__` (lines 196-204): `len(cost_matrix[0])` raises `IndexError` on
an empty matrix. -/
def hinit (cost_matrix : List (List Int)) : Except PyErr HState :=
  match cost_matrix with
  | [] => .error .indexError
  | r0 :: _ =>
    .ok { n := cost_matrix.length
          m := r0.length
          cost := fun i j => (cost_matrix.getD i []).getD j 0
          row_covered := fun _ => false
          col_covered := fun _ => false
          marked := fun _ _ => 0
          path := [] }

/-- Row minimum for `_step1`. Python's `min` of an empty row (m = 0) raises
`ValueError`; that state is unreachable from `minimize_mismatches`, whose
matrices are square with n = m ≥ 1, and is modelled by the default 0. -/
def rowMin (st : HState) (i : Nat) : Int :=
  (((List.range st.m).map (fun j => st.cost i j)).min?).getD 0

/-- `_step1` (lines 235-239): subtract each row's minimum. -/
def hstep1 (st : HState) : HState :=
  { st with cost := fun i j =>
      if i < st.n ∧ j < st.m then st.cost i j - rowMin st i else st.cost i j }

/-- Column minimum for `_step2`. -/
def colMin (st : HState) (j : Nat) : Int :=
  (((List.range st.n).map (fun i => st.cost i j)).min?).getD 0

/-- `_step2` (lines 241-245): subtract each column's minimum. -/
def hstep2 (st : HState) : HState :=
  { st with cost := fun i j =>
      if i < st.n ∧ j < st.m then st.cost i j - colMin st j else st.cost i j }

/-- The inner star-in-column scan of `_step3` (lines 252-255). -/
def colHasStar (st : HState) (j : Nat) : Bool :=
  (List.range st.n).any (fun i => st.marked i j == 1)

/-- One row of `_step3` (lines 248-258): star the first zero of the row whose
column carries no star, then leave the row. -/
def hstep3row (st : HState) (i : Nat) : HState :=
  match (List.range st.m).find?
      (fun j => st.cost i j == 0 && !(colHasStar st j)) with
  | some j => { st with marked := upd2 st.marked i j 1 }
  | none => st

/-- `_step3` (lines 247-259), which then moves to step 4. -/
def hstep3 (st : HState) : HState :=
  (List.range st.n).foldl hstep3row st

/-- The `star_count` accumulated by `_step4` (lines 261-268): every starred
entry, counted column-major. -/
def starCount (st : HState) : Nat :=
  ((List.range st.m).map
    (fun j => (List.range st.n).countP (fun i => st.marked i j == 1))).sum

/-- `_step4` (lines 261-268): cover every column holding a star; proceed to
step 5 when at least n stars exist, otherwise to step 6. -/
def hstep4 (st : HState) : HState × Nat :=
  ({ st with col_covered := fun j =>
      st.col_covered j || (decide (j < st.m) && colHasStar st j) },
   if st.n ≤ starCount st then 5 else 6)

/-- `_find_a_zero` (lines 206-211), row-major. -/
def find_a_zero (st : HState) : Option (Nat × Nat) :=
  ((List.range st.n).flatMap (fun i => (List.range st.m).map (fun j => (i, j)))).find?
    (fun p => st.cost p.1 p.2 == 0 && !st.row_covered p.1 && !st.col_covered p.2)

/-- `_find_star_in_row` (lines 213-217). -/
def find_star_in_row (st : HState) (row : Nat) : Option Nat :=
  (List.range st.m).find? (fun j => st.marked row j == 1)

/-- `_find_star_in_col` (lines 219-223). -/
def find_star_in_col (st : HState) (col : Nat) : Option Nat :=
  (List.range st.n).find? (fun i => st.marked i col == 1)

/-- `_find_prime_in_row` (lines 225-229). -/
def find_prime_in_row (st : HState) (row : Nat) : Option Nat :=
  (List.range st.m).find? (fun j => st.marked row j == 2)

/-- `_step5` (lines 270-282): prime uncovered zeros until none remains (go to
step 7) or an uncovered zero with no star in its row starts a path (go to
step 6). -/
def hstep5 : Nat → HState → Except PyErr (HState × Nat)
  | 0, _ => .error .fuelExhausted
  | f + 1, st =>
    match find_a_zero st with
    | none => .ok (st, 7)
    | some (row, col) =>
      let st1 := { st with marked := upd2 st.marked row col 2 }
      match find_star_in_row st1 row with
      | some star_col =>
        hstep5 f { st1 with row_covered := upd1 st1.row_covered row true
                            col_covered := upd1 st1.col_covered star_col false }
      | none => .ok ({ st1 with path := [(row, col)] }, 6)

/-- The path-growing `while` of `_step6` (lines 284-292). `path[-1]` on an
empty path raises `IndexError`. A row with a star but no prime would make the
source append index `-1` (Python negative indexing); that state is modelled
as `unmodelledNegIndex` and is unreachable from `solve`. -/
def hstep6loop : Nat → HState → Except PyErr HState
  | 0, _ => .error .fuelExhausted
  | f + 1, st =>
    match st.path.getLast? with
    | none => .error .indexError
    | some (_, last_col) =>
      match find_star_in_col st last_col with
      | none => .ok st
      | some star_row =>
        match find_prime_in_row st star_row with
        | some prime_col =>
          hstep6loop f
            { st with path := st.path ++ [(star_row, last_col), (star_row, prime_col)] }
        | none => .error .unmodelledNegIndex

/-- `_step6` (lines 284-305): grow the alternating path, flip stars and
primes along it, clear covers, erase all primes; back to step 4. -/
def hstep6 (st : HState) : Except PyErr (HState × Nat) :=
  (hstep6loop (st.n * st.m + st.path.length + 2) st).map (fun st' =>
    let flipped := st'.path.foldl (fun mk p =>
      if mk p.1 p.2 == 1 then upd2 mk p.1 p.2 0
      else if mk p.1 p.2 == 2 then upd2 mk p.1 p.2 1
      else mk) st'.marked
    ({ st' with
        marked := fun i j =>
          if i < st'.n ∧ j < st'.m ∧ flipped i j = 2 then 0 else flipped i j
        row_covered := fun _ => false
        col_covered := fun _ => false }, 4))

/-- `_step7` (lines 307-322): dual adjustment by the minimum uncovered entry.
With no uncovered entry Python's `float('inf')` would poison the matrix; that
state is unreachable from `solve` and modelled as a no-op adjustment. -/
def hstep7 (st : HState) : HState × Nat :=
  let uncovered :=
    ((List.range st.n).filter (fun i => !st.row_covered i)).flatMap
      (fun i => ((List.range st.m).filter (fun j => !st.col_covered j)).map
        (fun j => st.cost i j))
  match uncovered.min? with
  | none => (st, 5)
  | some mu =>
    ({ st with cost := fun i j =>
        if i < st.n ∧ j < st.m then
          st.cost i j + (if st.row_covered i then mu else 0)
            - (if !st.col_covered j then mu else 0)
        else st.cost i j }, 5)

/-- Number of covered columns, as `sum(self.col_covered)` (line 341). -/
def colCoveredCount (st : HState) : Nat :=
  (List.range st.m).countP (fun j => st.col_covered j)

/-- One dispatch of the `solve` loop body (lines 328-339). The catch-all is
unreachable: every step value produced is in 3..7. -/
def hdispatch : Nat → HState → Except PyErr (HState × Nat)
  | 3, st => .ok (hstep3 st, 4)
  | 4, st => .ok (hstep4 st)
  | 5, st => hstep5 (st.n * st.m + st.n + 2) st
  | 6, st => hstep6 st
  | 7, st => .ok (hstep7 st)
  | _, _ => .error .fuelExhausted

/-- The `solve` loop (lines 328-342): dispatch steps until the break
condition `step == 5 and sum(col_covered) >= n` holds. -/
def hloop : Nat → Nat → HState → Except PyErr HState
  | 0, _, _ => .error .fuelExhausted
  | f + 1, step, st =>
    match hdispatch step st with
    | .error e => .error e
    | .ok (st', next) =>
      if next == 5 && decide (st'.n ≤ colCoveredCount st') then .ok st'
      else hloop f next st'

/-- Result extraction of `solve` (lines 344-349): all starred cells,
row-major. -/
def hresults (st : HState) : List (Nat × Nat) :=
  (List.range st.n).flatMap (fun i =>
    ((List.range st.m).filter (fun j => st.marked i j == 1)).map (fun j => (i, j)))

/-- `HungarianAlgorithm(cost_matrix).solve()` (lines 324-349). -/
def hsolve (cost_matrix : List (List Int)) : Except PyErr (List (Nat × Nat)) :=
  match hinit cost_matrix with
  | .error e => .error e
  | .ok st0 =>
    (hloop ((st0.n + 2) * (st0.m + 2) * 4 + 8) 3 (hstep2 (hstep1 st0))).map hresults

/-! ### `minimize_mismatches` (lines 352-391) -/

/-- The reconstruction loop of `minimize_mismatches` (lines 384-387): for
each assignment pair, append `all_elements[row]` to
`temp_new_lists[slot_to_list_map[col]]`, with Python's list-index and
dict-subscript error semantics. -/
def placePairs (all_elements : List Job) (slotMap : List String) :
    List (Nat × Nat) → List (String × List Job) →
    Except PyErr (List (String × List Job))
  | [], temp => .ok temp
  | rc :: rest, temp =>
    match all_elements.get? rc.1, slotMap.get? rc.2 with
    | some element, some target =>
      match dictModify temp target (fun l => l ++ [element]) with
      | .ok temp' => placePairs all_elements slotMap rest temp'
      | .error e => .error e
    | _, _ => .error .indexError

/-- The final list comprehension of `minimize_mismatches` (line 389):
`[temp_new_lists[name] for name in list_names]`, raising `KeyError` at the
first missing name. -/
def lookupAll (temp : List (String × List Job)) :
    List String → Except PyErr (List (List Job))
  | [] => .ok []
  | nm :: rest =>
    match dictGet? temp nm with
    | some l => (lookupAll temp rest).map (l :: ·)
    | none => .error .keyError

/-- Embedding of `minimize_mismatches`. Building `slots` indexes
`list_names[i]` for every sublist, so fewer names than lists raises
`IndexError`; `zip` truncation elsewhere matches Python's `zip`. -/
def minimize_mismatches (lists_of_elements : List (List Job))
    (list_names : List String) : Except PyErr (List (List Job)) :=
  let all_elements := lists_of_elements.flatten
  if list_names.length < lists_of_elements.length then .error .indexError
  else
    let slots := (lists_of_elements.zip list_names).flatMap
      (fun p => List.replicate p.1.length p.2)
    let num_elements := all_elements.length
    if num_elements = 0 then .ok lists_of_elements
    else
      let cost_matrix : List (List Int) :=
        all_elements.map (fun el =>
          slots.map (fun sq => if el.queue ≠ some sq then 1 else 0))
      match hsolve cost_matrix with
      | .error e => .error e
      | .ok assignment =>
        let temp0 : List (String × List Job) :=
          list_names.foldl (fun d nm => dictInsert d nm []) []
        let slot_to_list_map := (list_names.zip lists_of_elements).flatMap
          (fun p => List.replicate p.2.length p.1)
        match placePairs all_elements slot_to_list_map assignment temp0 with
        | .error e => .error e
        | .ok temp => lookupAll temp list_names

/-! ### `scheduler_balance` (lines 394-481)

The function takes the `args` namespace and returns it alongside the result,
making the frame effect on `args` explicit: no statement of the source
assigns to any `args` attribute — line 402 copies the integer
`args.queue_info[queue].pcpus` into the fresh per-cycle `QueueRecord` — so
the returned namespace is the argument itself. `move_jobs_to_queue`
(lines 176-189) only runs subprocesses and logs, so moves are returned as
the list of (destination, jobs) batches it would be called with. -/

structure SBOut where
  records : List (String × QueueRecord)
  finalLists : List (String × List Job)
  moves : List (String × List Job)
deriving DecidableEq

/-- Python `job.queue in args.queue` with `queue : Option String`. -/
def jobQueueIn (j : Job) (qs : List String) : Bool :=
  match j.queue with
  | some q => qs.contains q
  | none => false

/-- Update the value at a key if present, unchanged otherwise (used only
where the source guards the subscript with `in records`). -/
def dictAdjust {α : Type} (d : List (String × α)) (k : String) (f : α → α) :
    List (String × α) :=
  d.map (fun kv => if kv.1 = k then (kv.1, f kv.2) else kv)

/-- Stable insertion for the ascending-`ncpus` sort. -/
def insertJobByNcpus (j : Job) : List Job → List Job
  | [] => [j]
  | x :: xs => if j.ncpus ≤ x.ncpus then j :: x :: xs else x :: insertJobByNcpus j xs

/-- `waiting_jobs.sort(key=lambda x: x.ncpus)` (line 415): Python's sort is
stable, and every stable ascending sort by the same key computes the same
list, here realised by insertion sort. -/
def sortJobsByNcpus : List Job → List Job
  | [] => []
  | x :: xs => insertJobByNcpus x (sortJobsByNcpus xs)

/-- The inner first-fit scan (lines 418-422) for one queue: the waiting list
is scanned from the last index downward; each job whose `ncpus` fits the
current capacity is popped, the capacity decremented, the job appended to the
received list. Returns (jobs kept, jobs received in pop order, capacity
left). -/
def firstFitQueue (cap : Int) : List Job → List Job × List Job × Int
  | [] => ([], [], cap)
  | j :: rest =>
    let (keep, recv, cap2) := firstFitQueue cap rest
    if j.ncpus ≤ cap2 then (keep, recv ++ [j], cap2 - j.ncpus)
    else (j :: keep, recv, cap2)

/-- The queue-major first-fit pass (lines 417-422) over all records in dict
order, threading the shrinking waiting list. -/
def firstFitAll : List (String × QueueRecord) → List Job →
    List (String × QueueRecord) × List Job
  | [], ws => ([], ws)
  | (k, v) :: rest, ws =>
    let (keep, recv, cap2) := firstFitQueue v.pcpus ws
    let v' := { v with pcpus := cap2, recv_jobs := v.recv_jobs ++ recv }
    let (rest', ws') := firstFitAll rest keep
    ((k, v') :: rest', ws')

/-- Lines 427-430: group the remaining waiting jobs under their current
queue's record, counting them in `njobq`. -/
def distributeWaiting : List Job → List (String × QueueRecord) →
    List (String × QueueRecord)
  | [], recs => recs
  | j :: rest, recs =>
    match j.queue with
    | some q =>
      if dictMem recs q then
        distributeWaiting rest (dictAdjust recs q (fun v =>
          { v with njobq := v.njobq + 1, waiting_jobs := v.waiting_jobs ++ [j] }))
      else distributeWaiting rest recs
    | none => distributeWaiting rest recs

/-- Lines 432-434: the donor-collection loop. The body executes
`donor += v["jobs"][:(n_target-v.njobq)]`, which subscripts the `QueueRecord`
dataclass and therefore raises `TypeError` the moment any record's queued
count exceeds the target; no donor is ever collected. -/
def collectDonors (recs : List (String × QueueRecord)) (n_target : Nat) :
    Except PyErr (List Job) :=
  match recs with
  | [] => .ok []
  | (_, v) :: rest =>
    if v.njobq > n_target then .error .typeError
    else collectDonors rest n_target

/-- Lines 436-440: queues below the target take jobs from the donor pool up
to their shortfall. -/
def acceptFromDonor : List (String × QueueRecord) → Nat → List Job →
    List (String × QueueRecord) × List Job
  | [], _, donor => ([], donor)
  | (k, v) :: rest, n_target, donor =>
    if v.njobq < n_target then
      let diff := min (n_target - v.njobq) donor.length
      let v' := { v with recv_jobs := v.recv_jobs ++ donor.take diff }
      let (rest', donor') := acceptFromDonor rest n_target (donor.drop diff)
      ((k, v') :: rest', donor')
    else
      let (rest', donor') := acceptFromDonor rest n_target donor
      ((k, v) :: rest', donor')

/-- Embedding of `scheduler_balance` (lines 394-481). The round-robin block
(lines 442-447) calls `.append` on a `QueueRecord` dataclass, an
`AttributeError`, so a non-empty leftover donor pool aborts the cycle; an
empty configured queue list would divide by zero at line 425. -/
def scheduler_balance_run (jobs : List Job) (args : Args) :
    Except PyErr SBOut :=
  let jobs := jobs.filter (fun j => jobQueueIn j args.queue)
  match args.queue.foldlM
      (fun (d : List (String × QueueRecord)) (q : String) =>
        match dictGet? args.queue_info q with
        | some qu => Except.ok (dictInsert d q (QueueRecord.mk 0 qu.pcpus [] []))
        | none => Except.error PyErr.keyError) [] with
  | .error e => .error e
  | .ok records0 =>
    let records1 := jobs.foldl (fun recs j =>
      if j.state == "R" then
        match j.queue with
        | some q =>
          if dictMem recs q then
            dictAdjust recs q (fun v => { v with pcpus := v.pcpus - j.ncpus })
          else recs
        | none => recs
      else recs) records0
    let waiting := sortJobsByNcpus (jobs.filter (fun j => j.state == "Q"))
    let (records2, leftover) := firstFitAll records1 waiting
    if args.queue.length = 0 then .error .zeroDivisionError
    else
      let n_target := leftover.length / args.queue.length
      let records3 := distributeWaiting leftover records2
      match collectDonors records3 n_target with
      | .error e => .error e
      | .ok donor =>
        let (records4, donor2) := acceptFromDonor records3 n_target donor
        if donor2 ≠ [] then .error .attributeError
        else
          let mmnames := records4.map Prod.fst
          let mmlists := records4.map (fun kv => kv.2.recv_jobs)
          match minimize_mismatches mmlists mmnames with
          | .error e => .error e
          | .ok newlists =>
            let pairs := mmnames.zip newlists
            let moves := (pairs.map (fun p =>
              (p.1, p.2.filter (fun j => j.queue ≠ some p.1)))).filter
                (fun p => !p.2.isEmpty)
            .ok ⟨records4, pairs, moves⟩

/-- `scheduler_balance` with its frame made explicit: the source never assigns
to any attribute of `args`, so the function returns the namespace it was
given alongside the cycle's outcome. -/
def scheduler_balance (jobs : List Job) (args : Args) :
    Args × Except PyErr SBOut :=
  (args, scheduler_balance_run jobs args)

/-- The `main` polling loop (lines 484-516), projected onto the capacity data
each cycle's Balancing Engine reads: `parse_arguments` collected
`args.queue_info` once before the loop, and each iteration runs
`get_user_jobs` then `scheduler_balance` on the same namespace. The function
returns, per completed engine invocation, the `queue_info` that invocation
used. An exception from a cycle ends the loop (caught at lines 509-514). -/
def runLoop : Nat → Args → Bool → (Nat → SpResult) →
    List (List (String × Queue))
  | 0, _, _, _ => []
  | k + 1, args, qstatFound, sps =>
    match get_user_jobs args.user qstatFound (sps 0) with
    | .error _ => []
    | .ok (_, jobs) =>
      let used := args.queue_info
      match scheduler_balance jobs args with
      | (args', .ok _) => used :: runLoop k args' qstatFound (fun i => sps (i + 1))
      | (_, .error _) => [used]

/-! ### Concrete fixtures for the claim scenarios -/

def cjA1 : Job := ⟨"1.srv", "job1", "alice", some "A", "Q", 1⟩
def cjA2 : Job := ⟨"2.srv", "job2", "alice", some "A", "Q", 1⟩
def cjA3 : Job := ⟨"3.srv", "job3", "alice", some "A", "Q", 1⟩
def cjB4 : Job := ⟨"4.srv", "job4", "alice", some "B", "Q", 1⟩

def cjb1 : Job := ⟨"5.srv", "job5", "alice", some "B", "Q", 1⟩
def cjb2 : Job := ⟨"6.srv", "job6", "alice", some "B", "Q", 1⟩
def cja7 : Job := ⟨"7.srv", "job7", "alice", some "A", "Q", 1⟩

def cargsAB : Args :=
  ⟨"alice", ["A", "B"], 60, "balance", false, [("A", ⟨"A", 0⟩), ("B", ⟨"B", 0⟩)]⟩
def cargsA : Args :=
  ⟨"alice", ["A"], 60, "balance", false, [("A", ⟨"A", 0⟩)]⟩

/-- C1: the assignment solver does not return a minimal matching for every
0/1 cost matrix built by the Assignment Minimizer: whenever the greedy
starring of `_step3` is not already a perfect matching, `_step4` jumps to
`_step6`, which evaluates `self.path[-1]` with an empty path and raises
`IndexError`. The matrix built from placing two jobs of queue B and one job
of queue A into slots [A, A, B] is such a case, so `minimize_mismatches`
raises instead of returning an assignment. -/
theorem minimize_mismatches_crashes_on_nonperfect_greedy :
    minimize_mismatches [[cjb1, cjb2], [cja7]] ["A", "B"] = .error .indexError ∧
      hsolve [[1, 1, 0], [1, 1, 0], [0, 0, 1]] = .error .indexError := by
  constructor <;> decide

/-- C3: the target-count equalization never donates: with queues A and B at
zero capacity and two waiting jobs currently in A, the per-queue target is 1
and A's queued count 2 exceeds it, so line 434 executes
`donor += v["jobs"][:(n_target-v.njobq)]`, which subscripts the `QueueRecord`
dataclass and raises `TypeError` instead of filling the donor pool. -/
theorem scheduler_balance_equalization_crashes :
    (scheduler_balance [cjA1, cjA2] cargsAB).2 = .error .typeError := by
  decide

/-- C4: the 2-queue, 4-job scenario (3 queued in A, 1 in B, both capacities
zero) does not produce one move command: the target is 2, A's queued count 3
exceeds it, and the cycle raises `TypeError` at line 434 before any move is
issued. -/
theorem scheduler_balance_four_job_scenario_crashes :
    (scheduler_balance [cjA1, cjA2, cjA3, cjB4] cargsAB).2 = .error .typeError := by
  decide

/-- C10: a balancing cycle never mutates the startup capacity baseline: the
`pcpus` stored in `args.queue_info` for every configured queue is the same
before and after `scheduler_balance`, which copies the integer into its
per-cycle `QueueRecord`s (line 402) and decrements only those. -/
theorem scheduler_balance_preserves_queue_info (jobs : List Job) (args : Args)
    (q : String) (qu : Queue) (h : dictGet? args.queue_info q = some qu) :
    dictGet? ((scheduler_balance jobs args).1).queue_info q = some qu ∧
      (scheduler_balance jobs args).1 = args :=
  ⟨h, rfl⟩

theorem scheduler_balance_preserves_queue_info_witness :
    dictGet? ((scheduler_balance [cjA1] cargsA).1).queue_info "A" =
        some ⟨"A", 0⟩ ∧
      (scheduler_balance [cjA1] cargsA).1 = cargsA :=
  scheduler_balance_preserves_queue_info [cjA1] cargsA "A" ⟨"A", 0⟩ (by decide)

/-- C2 (counterexample): the conservation invariant fails on a cycle that
completes without an exception: one configured queue A with zero capacity and
one waiting job already in A yields recv lists summing to 0 while 1 waiting
job was considered — the job stays in `waiting_jobs` and is never added to
any `recv_jobs`. -/
theorem scheduler_balance_drops_unplaced_jobs :
    (scheduler_balance [cjA1] cargsA).2.map
        (fun out => ((out.finalLists.map (fun p => p.2.length)).sum,
          (out.records.map (fun kv => kv.2.recv_jobs.length)).sum)) =
      .ok (0, 0) ∧
    (([cjA1].filter (fun j => jobQueueIn j cargsA.queue)).filter
        (fun j => j.state == "Q")).length = 1 ∧
    (0 : Nat) ≠ 1 := by
  refine ⟨by decide, by decide, by decide⟩

/-! ### C6: capacity staleness across cycles -/

def cPbsOut0 : String :=
  "\x7b\"nodes\": \x7b\"n1\": \x7b\"queue\": \"A\", \"pcpus\": 4\x7d\x7d\x7d"

def cPbsOut1 : String :=
  "\x7b\"nodes\": \x7b\"n1\": \x7b\"queue\": \"A\", \"pcpus\": 8\x7d\x7d\x7d"

def cargsC6 : Args :=
  ⟨"alice", ["A"], 60, "balance", false, [("A", ⟨"A", 4⟩)]⟩

theorem cPbsOut0_fixup_noop : safe_json_str cPbsOut0 = cPbsOut0 :=
  (safe_json_str_eq_self_iff _).mpr (by rw [countMatches_eval]; decide)

theorem cPbsOut1_fixup_noop : safe_json_str cPbsOut1 = cPbsOut1 :=
  (safe_json_str_eq_self_iff _).mpr (by rw [countMatches_eval]; decide)

theorem get_queue_info_cPbsOut0 :
    get_queue_info ["A"] false ⟨0, cPbsOut0, ""⟩ = .ok ([], [("A", ⟨"A", 4⟩)]) := by
  rw [get_queue_info]
  simp only [cPbsOut0_fixup_noop]
  decide

theorem get_queue_info_cPbsOut1 :
    get_queue_info ["A"] false ⟨0, cPbsOut1, ""⟩ = .ok ([], [("A", ⟨"A", 8⟩)]) := by
  rw [get_queue_info]
  simp only [cPbsOut1_fixup_noop]
  decide

/-- C6 (counterexample): the engine reuses the startup capacity snapshot. A
run whose startup topology reports 4 CPUs in queue A uses [("A", 4)] in both
of its first two cycles, even though the topology tool would by then report
8 CPUs (a fresh collection yields [("A", 8)] ≠ [("A", 4)]); the loop contains
no per-cycle capacity collection at all. -/
theorem capacity_not_recollected_counterexample :
    parse_arguments "alice" ["A"] 60 "balance" false true ⟨0, cPbsOut0, ""⟩ =
        .ok cargsC6 ∧
      runLoop 2 cargsC6 true (fun _ => ⟨1, "", "qstat failed"⟩) =
        [[("A", ⟨"A", 4⟩)], [("A", ⟨"A", 4⟩)]] ∧
      get_queue_info ["A"] false ⟨0, cPbsOut1, ""⟩ =
        .ok ([], [("A", ⟨"A", 8⟩)]) ∧
      ([("A", (⟨"A", 4⟩ : Queue))] : List (String × Queue)) ≠ [("A", ⟨"A", 8⟩)] := by
  refine ⟨?_, by decide, get_queue_info_cPbsOut1, by decide⟩
  rw [parse_arguments]
  rw [show dedupKeepFirst ["A"] = ["A"] from by decide,
    show (false || !true) = false from rfl, get_queue_info_cPbsOut0]
  decide

/-- C6 (amended): the per-queue capacity data the Balancing Engine uses is
collected once, by `parse_arguments` at startup; every iteration of the
control loop passes the same `args.queue_info` to `scheduler_balance`, which
rebuilds its per-cycle `QueueRecord`s from that startup snapshot. -/
theorem runLoop_reuses_startup_capacity (k : Nat) (args : Args) (qf : Bool)
    (sps : Nat → SpResult) :
    ∀ u ∈ runLoop k args qf sps, u = args.queue_info := by
  induction k generalizing args sps with
  | zero =>
    intro u hu
    simp [runLoop] at hu
  | succ k ih =>
    intro u hu
    rw [runLoop] at hu
    split at hu
    · simp at hu
    · revert hu
      have hfst : ∀ jobs, (scheduler_balance jobs args).1 = args := fun _ => rfl
      split
      · next args' out heq =>
        intro hu
        rcases List.mem_cons.mp hu with h | h
        · exact h
        · have : args' = args := by
            have := congrArg Prod.fst heq
            simpa using this.symm
          subst this
          exact ih args' _ u h
      · next heq =>
        intro hu
        simpa using hu

theorem runLoop_reuses_startup_capacity_witness :
    [("A", (⟨"A", 0⟩ : Queue))] ∈ runLoop 1 cargsA true (fun _ => ⟨1, "", ""⟩) ∧
      [("A", (⟨"A", 0⟩ : Queue))] = cargsA.queue_info :=
  ⟨by decide, runLoop_reuses_startup_capacity 1 cargsA true
    (fun _ => ⟨1, "", ""⟩) [("A", ⟨"A", 0⟩)] (by decide)⟩

/-! ### C7: the first-fit pass respects capacities -/

/-- A received sequence respects a starting capacity when each job, in
assignment order, requests no more than the capacity remaining at the moment
it is pulled, the capacity dropping by the job's request after each pull. -/
def fitsTrace : Int → List Job → Prop
  | _, [] => True
  | cap, j :: rest => j.ncpus ≤ cap ∧ fitsTrace (cap - j.ncpus) rest

/-- Total requested CPUs of a job list. -/
def sumNcpus (l : List Job) : Int :=
  (l.map Job.ncpus).sum

theorem firstFitQueue_cap (cap : Int) (ws : List Job) :
    (firstFitQueue cap ws).2.2 = cap - sumNcpus (firstFitQueue cap ws).2.1 := by
  induction ws with
  | nil => simp [firstFitQueue, sumNcpus]
  | cons j rest ih =>
    rw [firstFitQueue]
    rcases hfq : firstFitQueue cap rest with ⟨keep, recv, cap2⟩
    rw [hfq] at ih
    simp only at ih ⊢
    split_ifs with h
    · simp only [sumNcpus, List.map_append, List.sum_append] at ih ⊢
      simp
      omega
    · exact ih

theorem fitsTrace_append {cap : Int} {recv : List Job} {x : Job}
    (h : fitsTrace cap recv) (hx : x.ncpus ≤ cap - sumNcpus recv) :
    fitsTrace cap (recv ++ [x]) := by
  induction recv generalizing cap with
  | nil =>
    simp only [sumNcpus, List.map_nil, List.sum_nil, sub_zero] at hx
    exact ⟨hx, trivial⟩
  | cons j rest ih =>
    obtain ⟨h1, h2⟩ := h
    refine ⟨h1, ih h2 ?_⟩
    simp only [sumNcpus, List.map_cons, List.sum_cons] at hx ⊢
    omega

theorem firstFitQueue_fits (cap : Int) (ws : List Job) :
    fitsTrace cap (firstFitQueue cap ws).2.1 := by
  induction ws with
  | nil => trivial
  | cons j rest ih =>
    have hc := firstFitQueue_cap cap rest
    rw [firstFitQueue]
    rcases hfq : firstFitQueue cap rest with ⟨keep, recv, cap2⟩
    rw [hfq] at ih hc
    simp only at ih hc ⊢
    split_ifs with h
    · exact fitsTrace_append ih (by rw [← hc]; exact h)
    · exact ih

/-- C7: in the first-fit pass, for every waiting list and every configured
queue record, each job pulled into that queue's `recv_jobs` requests no more
than the queue's remaining capacity at the moment of the pull, the capacity
being decremented by the job's request after each pull; no job is ever
assigned to a queue whose remaining capacity is smaller than its request.
The received jobs of a queue are the ones its output record appends after
the entries it already carried. -/
theorem firstfit_respects_capacity (recs : List (String × QueueRecord))
    (ws : List Job) :
    List.Forall₂
      (fun (inR : String × QueueRecord) (outR : String × QueueRecord) =>
        fitsTrace inR.2.pcpus (outR.2.recv_jobs.drop inR.2.recv_jobs.length))
      recs (firstFitAll recs ws).1 := by
  induction recs generalizing ws with
  | nil => exact List.Forall₂.nil
  | cons kv rest ih =>
    obtain ⟨k, v⟩ := kv
    rw [firstFitAll]
    refine List.Forall₂.cons ?_ (ih _)
    simp only [List.drop_left]
    exact firstFitQueue_fits v.pcpus ws

/-! ### Success analysis of the Hungarian solver

`solve` can only return normally when the greedy starring of `_step3` already
is a perfect matching: otherwise `_step4` hands control to `_step6`, whose
`path[-1]` raises `IndexError`. The lemmas below derive, for any successful
`hsolve`, that the returned assignment has exactly one pair per row. -/

/-- Stars in one row of the mark matrix. -/
def rowStars (st : HState) (i : Nat) : Nat :=
  (List.range st.m).countP (fun j => st.marked i j == 1)

/-- Stars in one column of the mark matrix. -/
def colStars (st : HState) (j : Nat) : Nat :=
  (List.range st.n).countP (fun i => st.marked i j == 1)

theorem countP_eq_sum_map {α : Type} (l : List α) (p : α → Bool) :
    l.countP p = (l.map (fun x => if p x then 1 else 0)).sum := by
  induction l with
  | nil => rfl
  | cons a l ih =>
    rw [List.countP_cons, List.map_cons, List.sum_cons, ih]
    by_cases h : p a <;> simp [h] <;> omega

theorem countP_range_eq_sum (k : Nat) (p : Nat → Bool) :
    (List.range k).countP p = ∑ x in Finset.range k, (if p x then 1 else 0) := by
  induction k with
  | zero => rfl
  | succ k ih =>
    rw [List.range_succ, List.countP_append, Finset.sum_range_succ, ih]
    simp [List.countP_cons]

theorem sum_map_range_eq_sum (k : Nat) (f : Nat → Nat) :
    ((List.range k).map f).sum = ∑ x in Finset.range k, f x := by
  induction k with
  | zero => rfl
  | succ k ih =>
    rw [List.range_succ, List.map_append, List.sum_append, Finset.sum_range_succ, ih]
    simp

/-- `star_count` counts column-major; summing row stars gives the same
total. -/
theorem starCount_eq_sum_rowStars (st : HState) :
    starCount st = ((List.range st.n).map (fun i => rowStars st i)).sum := by
  rw [starCount, sum_map_range_eq_sum, sum_map_range_eq_sum]
  have h1 : ∀ j, (List.range st.n).countP (fun i => st.marked i j == 1) =
      ∑ i in Finset.range st.n, (if st.marked i j == 1 then 1 else 0) :=
    fun j => countP_range_eq_sum st.n _
  have h2 : ∀ i, rowStars st i =
      ∑ j in Finset.range st.m, (if st.marked i j == 1 then 1 else 0) :=
    fun i => countP_range_eq_sum st.m _
  calc ∑ j in Finset.range st.m, (List.range st.n).countP (fun i => st.marked i j == 1)
      = ∑ j in Finset.range st.m, ∑ i in Finset.range st.n,
          (if st.marked i j == 1 then 1 else 0) := Finset.sum_congr rfl (fun j _ => h1 j)
    _ = ∑ i in Finset.range st.n, ∑ j in Finset.range st.m,
          (if st.marked i j == 1 then 1 else 0) := Finset.sum_comm
    _ = ∑ i in Finset.range st.n, rowStars st i :=
          Finset.sum_congr rfl (fun i _ => (h2 i).symm)

theorem colHasStar_false_iff (st : HState) (j : Nat) :
    colHasStar st j = false ↔ colStars st j = 0 := by
  rw [colStars, List.countP_eq_zero, colHasStar]
  constructor
  · intro h i hi
    have := List.any_eq_false.mp h i hi
    simpa using this
  · intro h
    exact List.any_eq_false.mpr (fun i hi => by simpa using h i hi)

/-- Fields other than `marked` are untouched by one `_step3` row. -/
theorem hstep3row_frame (st : HState) (i : Nat) :
    (hstep3row st i).n = st.n ∧ (hstep3row st i).m = st.m ∧
    (hstep3row st i).cost = st.cost ∧ (hstep3row st i).path = st.path ∧
    (hstep3row st i).row_covered = st.row_covered ∧
    (hstep3row st i).col_covered = st.col_covered := by
  rw [hstep3row]
  split <;> exact ⟨rfl, rfl, rfl, rfl, rfl, rfl⟩

theorem hstep3_fold_frame : ∀ (l : List Nat) (st : HState),
    (l.foldl hstep3row st).n = st.n ∧ (l.foldl hstep3row st).m = st.m ∧
    (l.foldl hstep3row st).cost = st.cost ∧
    (l.foldl hstep3row st).path = st.path ∧
    (l.foldl hstep3row st).row_covered = st.row_covered ∧
    (l.foldl hstep3row st).col_covered = st.col_covered := by
  intro l
  induction l with
  | nil => exact fun st => ⟨rfl, rfl, rfl, rfl, rfl, rfl⟩
  | cons i l ih =>
    intro st
    obtain ⟨f1, f2, f3, f4, f5, f6⟩ := ih (hstep3row st i)
    obtain ⟨g1, g2, g3, g4, g5, g6⟩ := hstep3row_frame st i
    rw [List.foldl_cons]
    exact ⟨f1.trans g1, f2.trans g2, f3.trans g3, f4.trans g4,
      f5.trans g5, f6.trans g6⟩

theorem hstep3_frame (st : HState) :
    (hstep3 st).n = st.n ∧ (hstep3 st).m = st.m ∧
    (hstep3 st).cost = st.cost ∧ (hstep3 st).path = st.path ∧
    (hstep3 st).row_covered = st.row_covered ∧
    (hstep3 st).col_covered = st.col_covered :=
  hstep3_fold_frame (List.range st.n) st

theorem hstep3row_marks {st : HState} {i : Nat}
    (hrow0 : ∀ j, st.marked i j = 0)
    (hrows : ∀ i', rowStars st i' ≤ 1)
    (hcols : ∀ j', colStars st j' ≤ 1) :
    (∀ i', rowStars (hstep3row st i) i' ≤ 1) ∧
    (∀ j', colStars (hstep3row st i) j' ≤ 1) ∧
    (∀ i', i' ≠ i → (∀ j, st.marked i' j = 0) →
      ∀ j, (hstep3row st i).marked i' j = 0) := by
  rw [hstep3row]
  cases hfind : (List.range st.m).find?
      (fun j => st.cost i j == 0 && !(colHasStar st j)) with
  | none => exact ⟨hrows, hcols, fun _ _ h j => h j⟩
  | some j =>
    have hpred := List.find?_some hfind
    have hnostar : colHasStar st j = false := by
      rcases Bool.and_eq_true .. |>.mp hpred with ⟨-, h2⟩
      simpa using h2
    have hcol0 : ∀ a ∈ List.range st.n, ¬ (st.marked a j == 1) = true :=
      List.countP_eq_zero.mp ((colHasStar_false_iff st j).mp hnostar)
    refine ⟨?_, ?_, ?_⟩
    · intro i'
      by_cases hi : i' = i
      · subst hi
        have : rowStars { st with marked := upd2 st.marked i' j 1 } i' =
            (List.range st.m).countP (fun b => b == j) := by
          apply List.countP_congr
          intro b _
          constructor
          · intro hb
            simp only [upd2] at hb
            by_cases hbj : b = j
            · simpa using hbj
            · rw [if_neg (by simp [hbj]), hrow0 b] at hb
              simp at hb
          · intro hb
            have hbj : b = j := by simpa using hb
            subst hbj
            simp [upd2]
        rw [this, ← List.count_eq_countP]
        exact List.nodup_iff_count_le_one.mp (List.nodup_range st.m) j
      · have : rowStars { st with marked := upd2 st.marked i j 1 } i' =
            rowStars st i' := by
          apply List.countP_congr
          intro b _
          dsimp only
          rw [show upd2 st.marked i j 1 i' b = st.marked i' b from by
            simp only [upd2]
            rw [if_neg]
            rintro ⟨h1, -⟩
            exact hi h1]
        rw [this]
        exact hrows i'
    · intro j'
      by_cases hj : j' = j
      · subst hj
        have : colStars { st with marked := upd2 st.marked i j' 1 } j' =
            (List.range st.n).countP (fun a => a == i) := by
          apply List.countP_congr
          intro a ha
          constructor
          · intro hb
            simp only [upd2] at hb
            by_cases hai : a = i
            · simpa using hai
            · rw [if_neg (by simp [hai])] at hb
              exact absurd hb (hcol0 a ha)
          · intro hb
            have hai : a = i := by simpa using hb
            subst hai
            simp [upd2]
        rw [this, ← List.count_eq_countP]
        exact List.nodup_iff_count_le_one.mp (List.nodup_range st.n) i
      · have : colStars { st with marked := upd2 st.marked i j 1 } j' =
            colStars st j' := by
          apply List.countP_congr
          intro a _
          dsimp only
          rw [show upd2 st.marked i j 1 a j' = st.marked a j' from by
            simp only [upd2]
            rw [if_neg]
            rintro ⟨-, h2⟩
            exact hj h2]
        rw [this]
        exact hcols j'
    · intro i' hne hz b
      show upd2 st.marked i j 1 i' b = 0
      simp only [upd2]
      rw [if_neg]
      · exact hz b
      · rintro ⟨h1, -⟩
        exact hne h1

theorem hstep3_fold_marks : ∀ (l : List Nat) (st : HState),
    l.Nodup →
    (∀ i ∈ l, ∀ j, st.marked i j = 0) →
    (∀ i', rowStars st i' ≤ 1) →
    (∀ j', colStars st j' ≤ 1) →
    (∀ i', rowStars (l.foldl hstep3row st) i' ≤ 1) ∧
    (∀ j', colStars (l.foldl hstep3row st) j' ≤ 1) := by
  intro l
  induction l with
  | nil => exact fun st _ _ hr hc => ⟨hr, hc⟩
  | cons i l ih =>
    intro st hnd hz hr hc
    rw [List.foldl_cons]
    obtain ⟨h1, h2, h3⟩ := hstep3row_marks (hz i (List.mem_cons_self i l)) hr hc
    refine ih (hstep3row st i) (List.Nodup.of_cons hnd) ?_ h1 h2
    intro i' hi' j
    have hne : i' ≠ i := by
      rintro rfl
      exact (List.nodup_cons.mp hnd).1 hi'
    exact h3 i' hne (hz i' (List.mem_cons_of_mem i hi')) j

/-- After `_step3` on an all-zero mark matrix, each row and each column
carries at most one star. -/
theorem hstep3_marks (st : HState) (hz : ∀ i j, st.marked i j = 0) :
    (∀ i, rowStars (hstep3 st) i ≤ 1) ∧ (∀ j, colStars (hstep3 st) j ≤ 1) := by
  refine hstep3_fold_marks (List.range st.n) st (List.nodup_range st.n)
    (fun i _ j => hz i j) ?_ ?_
  · intro i'
    rw [rowStars, List.countP_eq_zero.mpr (fun j _ => by simp [hz i' j])]
    omega
  · intro j'
    rw [colStars, List.countP_eq_zero.mpr (fun i _ => by simp [hz i j'])]
    omega

theorem hstep4_cover_count (st : HState) (hcc : st.col_covered = fun _ => false) :
    colCoveredCount (hstep4 st).1 =
      (List.range st.m).countP (fun j => colHasStar st j) := by
  rw [colCoveredCount]
  apply List.countP_congr
  intro j hj
  have hjm : j < st.m := List.mem_range.mp hj
  show ((hstep4 st).1.col_covered j = true) ↔ _
  rw [hstep4]
  dsimp only
  rw [hcc]
  simp [hjm]

theorem countP_colHasStar_eq_starCount (st : HState)
    (hcols : ∀ j, colStars st j ≤ 1) :
    (List.range st.m).countP (fun j => colHasStar st j) = starCount st := by
  have hsc : starCount st = ((List.range st.m).map (fun j => colStars st j)).sum := rfl
  rw [hsc, countP_eq_sum_map]
  congr 1
  apply List.map_congr_left
  intro j _
  by_cases h : colHasStar st j = true
  · have h0 : colStars st j ≠ 0 := by
      intro hz
      rw [(colHasStar_false_iff st j).mpr hz] at h
      exact Bool.false_ne_true h
    have := hcols j
    simp [h]
    omega
  · have h0 : colStars st j = 0 :=
      (colHasStar_false_iff st j).mp (Bool.eq_false_iff.mpr h)
    simp [h, h0]

theorem starCount_le_n (st : HState) (hrows : ∀ i, rowStars st i ≤ 1) :
    starCount st ≤ st.n := by
  rw [starCount_eq_sum_rowStars, sum_map_range_eq_sum]
  calc ∑ i in Finset.range st.n, rowStars st i
      ≤ ∑ _i in Finset.range st.n, 1 := Finset.sum_le_sum (fun i _ => hrows i)
    _ = st.n := by simp

theorem hresults_length (st : HState) :
    (hresults st).length = ((List.range st.n).map (fun i => rowStars st i)).sum := by
  rw [hresults, List.length_flatMap]
  congr 1
  apply List.map_congr_left
  intro i _
  show (((List.range st.m).filter (fun j => st.marked i j == 1)).map
    (fun j => (i, j))).length = rowStars st i
  rw [List.length_map, rowStars, List.countP_eq_length_filter]

/-- Any normal return of `solve` delivers exactly one assignment pair per row
of the cost matrix: success forces the greedy starring of `_step3` to be
perfect (otherwise `_step6` raises on the empty path), and the result lists
those n stars. -/
theorem hsolve_ok_length {cost_matrix : List (List Int)} {res : List (Nat × Nat)}
    (h : hsolve cost_matrix = .ok res) : res.length = cost_matrix.length := by
  match cost_matrix with
  | [] => rw [hsolve, hinit] at h; exact absurd h (by simp)
  | r0 :: rest =>
    rw [hsolve, hinit] at h
    dsimp only at h
    set st0 : HState :=
      { n := (r0 :: rest).length, m := r0.length,
        cost := fun i j => ((r0 :: rest).getD i []).getD j 0,
        row_covered := fun _ => false, col_covered := fun _ => false,
        marked := fun _ _ => 0, path := [] } with hst0
    set st2 := hstep2 (hstep1 st0) with hst2
    have hz2 : ∀ i j, st2.marked i j = 0 := fun i j => rfl
    have hn2 : st2.n = (r0 :: rest).length := rfl
    have hcc2 : st2.col_covered = fun _ => false := rfl
    have hpath2 : st2.path = [] := rfl
    set st3 := hstep3 st2 with hst3
    obtain ⟨hf1, hf2, hf3, hf4, hf5, hf6⟩ := hstep3_frame st2
    obtain ⟨hrows3, hcols3⟩ := hstep3_marks st2 hz2
    obtain ⟨F, hF⟩ : ∃ F, (st0.n + 2) * (st0.m + 2) * 4 + 8 = F + 3 :=
      ⟨(st0.n + 2) * (st0.m + 2) * 4 + 5, by omega⟩
    rw [hF] at h
    rw [show F + 3 = (F + 2) + 1 from rfl, hloop] at h
    rw [show hdispatch 3 st2 = .ok (st3, 4) from rfl] at h
    simp only [show ((4 : Nat) == 5) = false from rfl, Bool.false_and,
      Bool.false_eq_true, if_false] at h
    rw [show F + 2 = (F + 1) + 1 from rfl, hloop] at h
    rw [show hdispatch 4 st3 = .ok (hstep4 st3) from rfl] at h
    rcases h4 : hstep4 st3 with ⟨st4, next4⟩
    rw [h4] at h
    dsimp only at h
    have hst4 : st4 = (hstep4 st3).1 := by rw [h4]
    have hnx : next4 = (hstep4 st3).2 := by rw [h4]
    by_cases hsc : st3.n ≤ starCount st3
    · have hnext : next4 = 5 := by rw [hnx, hstep4]; simp [hsc]
      have hcover : colCoveredCount st4 = starCount st3 := by
        rw [hst4, hstep4_cover_count st3 (hf6.trans hcc2),
          countP_colHasStar_eq_starCount st3 hcols3]
      have hn4 : st4.n = st3.n := by rw [hst4, hstep4]
      rw [hnext] at h
      simp only [show ((5 : Nat) == 5) = true from rfl, Bool.true_and] at h
      rw [if_pos (by rw [hn4, hcover]; exact decide_eq_true hsc)] at h
      simp only [Except.map, Except.ok.injEq] at h
      subst h
      have hm4 : st4.marked = st3.marked := by rw [hst4, hstep4]
      have hmm4 : st4.m = st3.m := by rw [hst4, hstep4]
      have heq : (hresults st4).length = starCount st3 := by
        rw [hresults_length]
        have hrs : ∀ i, rowStars st4 i = rowStars st3 i := by
          intro i
          rw [rowStars, rowStars, hmm4, hm4]
        rw [hn4, List.map_congr_left (fun i _ => hrs i), ← starCount_eq_sum_rowStars]
      rw [heq]
      have hle := starCount_le_n st3 hrows3
      have : starCount st3 = st3.n := le_antisymm hle hsc
      rw [this, hf1, hn2]
    · have hnext : next4 = 6 := by rw [hnx, hstep4]; simp [hsc]
      rw [hnext] at h
      simp only [show ((6 : Nat) == 5) = false from rfl, Bool.false_and,
        Bool.false_eq_true, if_false] at h
      rw [show F + 1 = F + 1 from rfl, hloop] at h
      have hpath4 : st4.path = [] := by
        rw [hst4, show (hstep4 st3).1.path = st3.path from by rw [hstep4], hf4, hpath2]
      have hdisp6 : hdispatch 6 st4 = .error .indexError := by
        rw [show hdispatch 6 st4 = hstep6 st4 from rfl, hstep6]
        rw [show st4.n * st4.m + st4.path.length + 2 =
          (st4.n * st4.m + st4.path.length + 1) + 1 from rfl, hstep6loop]
        rw [hpath4]
        rfl
      rw [hdisp6] at h
      exact absurd h (by simp [Except.map])

/-! ### Size preservation of a successful `minimize_mismatches` -/

/-- Total size of a family of job lists. -/
def sumSizes (l : List (List Job)) : Nat :=
  (l.map List.length).sum

/-- Total size of the values of a job-list dict. -/
def sumVals (d : List (String × List Job)) : Nat :=
  (d.map (fun kv => kv.2.length)).sum

theorem dictModify_append_one {d d' : List (String × List Job)} {k : String}
    {x : Job} (h : dictModify d k (fun l => l ++ [x]) = .ok d') :
    sumVals d' = sumVals d + 1 ∧ d'.map Prod.fst = d.map Prod.fst := by
  induction d generalizing d' with
  | nil => exact absurd h (by simp [dictModify])
  | cons kv rest ih =>
    obtain ⟨k', v⟩ := kv
    rw [dictModify] at h
    split_ifs at h with hk
    · simp only [Except.ok.injEq] at h
      subst h
      constructor
      · simp only [sumVals, List.map_cons, List.sum_cons, List.length_append]
        simp
        omega
      · simp
    · rcases hrec : dictModify rest k (fun l => l ++ [x]) with e | r'
      · rw [hrec] at h
        exact absurd h (by simp [Except.map])
      · rw [hrec] at h
        simp only [Except.map, Except.ok.injEq] at h
        subst h
        obtain ⟨ih1, ih2⟩ := ih hrec
        constructor
        · simp only [sumVals, List.map_cons, List.sum_cons] at ih1 ⊢
          omega
        · simp only [List.map_cons, ih2]

theorem placePairs_ok {all_elements : List Job} {slotMap : List String} :
    ∀ {pairs : List (Nat × Nat)} {temp temp' : List (String × List Job)},
    placePairs all_elements slotMap pairs temp = .ok temp' →
    sumVals temp' = sumVals temp + pairs.length ∧
      temp'.map Prod.fst = temp.map Prod.fst := by
  intro pairs
  induction pairs with
  | nil =>
    intro temp temp' h
    rw [placePairs] at h
    simp only [Except.ok.injEq] at h
    subst h
    exact ⟨rfl, rfl⟩
  | cons rc rest ih =>
    intro temp temp' h
    rw [placePairs] at h
    rcases hget1 : all_elements.get? rc.1 with - | el <;> rw [hget1] at h
    · exact absurd h (by simp)
    · rcases hget2 : slotMap.get? rc.2 with - | tgt <;> rw [hget2] at h
      · exact absurd h (by simp)
      · dsimp only at h
        rcases hmod : dictModify temp tgt (fun l => l ++ [el]) with e | temp1 <;>
          rw [hmod] at h
        · exact absurd h (by simp)
        · obtain ⟨h1, h2⟩ := dictModify_append_one hmod
          obtain ⟨h3, h4⟩ := ih h
          refine ⟨?_, h4.trans h2⟩
          rw [h3, h1, List.length_cons]
          omega

theorem dictInsert_fresh {α : Type} {d : List (String × α)} {k : String}
    (v : α) (h : dictGet? d k = none) :
    dictInsert d k v = d ++ [(k, v)] := by
  induction d with
  | nil => rfl
  | cons kv rest ih =>
    obtain ⟨k', v'⟩ := kv
    rw [dictGet?] at h
    rw [dictInsert]
    split_ifs at h ⊢ with hk
    rw [ih h, List.cons_append]

theorem dictGet?_append_singleton {α : Type} {d : List (String × α)}
    {k k' : String} (v : α) (h : dictGet? d k' = none) :
    dictGet? (d ++ [(k, v)]) k' = if k = k' then some v else none := by
  induction d with
  | nil => simp [dictGet?]
  | cons kv rest ih =>
    obtain ⟨k0, v0⟩ := kv
    rw [dictGet?] at h
    split_ifs at h with hk
    rw [List.cons_append, dictGet?, if_neg hk]
    exact ih h

theorem temp0_shape : ∀ (names : List String) (acc : List (String × List Job)),
    names.Nodup → (∀ nm ∈ names, dictGet? acc nm = none) →
    names.foldl (fun d nm => dictInsert d nm ([] : List Job)) acc =
      acc ++ names.map (fun nm => (nm, [])) := by
  intro names
  induction names with
  | nil => intro acc _ _; simp
  | cons nm rest ih =>
    intro acc hnd hfresh
    rw [List.foldl_cons,
      dictInsert_fresh ([] : List Job) (hfresh nm (List.mem_cons_self nm rest))]
    rw [ih (acc ++ [(nm, [])]) (List.Nodup.of_cons hnd) ?_]
    · simp
    · intro nm' hnm'
      rw [dictGet?_append_singleton ([] : List Job)
        (hfresh nm' (List.mem_cons_of_mem nm hnm'))]
      rw [if_neg]
      rintro rfl
      exact (List.nodup_cons.mp hnd).1 hnm'

theorem lookupAll_congr : ∀ (names : List String)
    (t1 t2 : List (String × List Job)),
    (∀ nm ∈ names, dictGet? t1 nm = dictGet? t2 nm) →
    lookupAll t1 names = lookupAll t2 names := by
  intro names
  induction names with
  | nil => intro t1 t2 _; rfl
  | cons nm rest ih =>
    intro t1 t2 h
    rw [lookupAll, lookupAll, h nm (List.mem_cons_self nm rest),
      ih t1 t2 (fun nm' h' => h nm' (List.mem_cons_of_mem nm h'))]

theorem lookupAll_of_keys : ∀ (names : List String)
    (temp : List (String × List Job)),
    temp.map Prod.fst = names → names.Nodup →
    lookupAll temp names = .ok (temp.map Prod.snd) := by
  intro names
  induction names with
  | nil =>
    intro temp hkeys _
    have : temp = [] := by
      cases temp with
      | nil => rfl
      | cons kv r => simp at hkeys
    subst this
    rfl
  | cons nm rest ih =>
    intro temp hkeys hnd
    match temp, hkeys with
    | (k0, v0) :: temp', hkeys =>
      simp only [List.map_cons, List.cons.injEq] at hkeys
      obtain ⟨hk0, hkeys'⟩ := hkeys
      subst hk0
      rw [lookupAll]
      rw [show dictGet? ((k0, v0) :: temp') k0 = some v0 from by
        rw [dictGet?, if_pos rfl]]
      have hcongr : lookupAll ((k0, v0) :: temp') rest = lookupAll temp' rest := by
        apply lookupAll_congr
        intro nm' hnm'
        rw [dictGet?, if_neg]
        rintro rfl
        exact (List.nodup_cons.mp hnd).1 hnm'
      rw [hcongr, ih temp' hkeys' (List.Nodup.of_cons hnd)]
      rfl

/-- A successful `minimize_mismatches` call redistributes exactly the given
jobs: the output family has the same total size as the input family and one
list per queue name. -/
theorem minimize_ok_sum {lists : List (List Job)} {names : List String}
    {out : List (List Job)} (hnodup : names.Nodup)
    (hlen : lists.length = names.length)
    (h : minimize_mismatches lists names = .ok out) :
    sumSizes out = sumSizes lists ∧ out.length = names.length := by
  rw [minimize_mismatches] at h
  dsimp only at h
  rw [if_neg (by omega)] at h
  by_cases hz : lists.flatten.length = 0
  · rw [if_pos hz] at h
    simp only [Except.ok.injEq] at h
    subst h
    exact ⟨rfl, hlen⟩
  · rw [if_neg hz] at h
    rcases hsol : hsolve (lists.flatten.map (fun el =>
        ((lists.zip names).flatMap (fun p => List.replicate p.1.length p.2)).map
          (fun sq => if el.queue ≠ some sq then 1 else 0))) with e | assignment <;>
      rw [hsol] at h
    · exact absurd h (by simp)
    · dsimp only at h
      rcases hplace : placePairs lists.flatten
          ((names.zip lists).flatMap (fun p => List.replicate p.2.length p.1))
          assignment
          (names.foldl (fun d nm => dictInsert d nm []) []) with e | temp <;>
        rw [hplace] at h
      · exact absurd h (by simp)
      · have hshape := temp0_shape names [] hnodup (fun _ _ => rfl)
        rw [List.nil_append] at hshape
        have hkeys0 : (names.foldl (fun d nm => dictInsert d nm ([] : List Job)) []).map
            Prod.fst = names := by
          rw [hshape, List.map_map]
          rw [show (Prod.fst ∘ fun nm => (nm, ([] : List Job))) = id from rfl,
            List.map_id]
        have hvals0 : sumVals (names.foldl
            (fun d nm => dictInsert d nm ([] : List Job)) []) = 0 := by
          rw [hshape, sumVals, List.map_map]
          rw [show ((fun (kv : String × List Job) => kv.2.length) ∘
            fun nm => (nm, ([] : List Job))) = fun _ => 0 from rfl]
          simp
        dsimp only at h
        obtain ⟨hsum, hkeys⟩ := placePairs_ok hplace
        rw [hvals0, Nat.zero_add] at hsum
        rw [hkeys0] at hkeys
        rw [lookupAll_of_keys names temp hkeys hnodup] at h
        simp only [Except.ok.injEq] at h
        subst h
        have hslen := hsolve_ok_length hsol
        rw [List.length_map] at hslen
        constructor
        · rw [show sumSizes (temp.map Prod.snd) = sumVals temp from by
            simp [sumSizes, sumVals, List.map_map]; rfl]
          rw [hsum, hslen]
          simp [sumSizes]
        · rw [List.length_map, show temp.length = (temp.map Prod.fst).length from
            (List.length_map ..).symm, hkeys]

/-! ### Conservation bookkeeping for `scheduler_balance` -/

/-- Total received jobs across records. -/
def sumRecv (d : List (String × QueueRecord)) : Nat :=
  (d.map (fun kv => kv.2.recv_jobs.length)).sum

/-- Total grouped waiting jobs across records. -/
def sumWaiting (d : List (String × QueueRecord)) : Nat :=
  (d.map (fun kv => kv.2.waiting_jobs.length)).sum

theorem dictAdjust_keys {α : Type} (d : List (String × α)) (k : String)
    (f : α → α) : (dictAdjust d k f).map Prod.fst = d.map Prod.fst := by
  rw [dictAdjust, List.map_map]
  apply List.map_congr_left
  intro kv _
  by_cases h : kv.1 = k <;> simp [h]

theorem dictGet?_isSome_iff_mem_keys {α : Type} (d : List (String × α))
    (k : String) : dictMem d k = true ↔ k ∈ d.map Prod.fst := by
  induction d with
  | nil => simp [dictMem, dictGet?]
  | cons kv rest ih =>
    obtain ⟨k', v⟩ := kv
    rw [dictMem, dictGet?]
    by_cases h : k' = k
    · subst h
      simp
    · rw [if_neg h]
      simp only [List.map_cons, List.mem_cons]
      rw [← ih, dictMem]
      constructor
      · intro hh; exact Or.inr hh
      · rintro (hh | hh)
        · exact absurd hh.symm h
        · exact hh

theorem insertJobByNcpus_length (j : Job) (l : List Job) :
    (insertJobByNcpus j l).length = l.length + 1 := by
  induction l with
  | nil => rfl
  | cons x xs ih =>
    rw [insertJobByNcpus]
    split_ifs with h
    · simp
    · simp only [List.length_cons, ih]

theorem insertJobByNcpus_mem {x j : Job} {l : List Job}
    (h : x ∈ insertJobByNcpus j l) : x = j ∨ x ∈ l := by
  induction l with
  | nil => simpa [insertJobByNcpus] using h
  | cons y ys ih =>
    rw [insertJobByNcpus] at h
    split_ifs at h with hc
    · rcases List.mem_cons.mp h with h1 | h1
      · exact Or.inl h1
      · exact Or.inr h1
    · rcases List.mem_cons.mp h with h1 | h1
      · exact Or.inr (List.mem_cons.mpr (Or.inl h1))
      · rcases ih h1 with h2 | h2
        · exact Or.inl h2
        · exact Or.inr (List.mem_cons.mpr (Or.inr h2))

theorem sortJobsByNcpus_length (ws : List Job) :
    (sortJobsByNcpus ws).length = ws.length := by
  induction ws with
  | nil => rfl
  | cons x xs ih => rw [sortJobsByNcpus, insertJobByNcpus_length, ih, List.length_cons]

theorem sortJobsByNcpus_mem {j : Job} {ws : List Job}
    (h : j ∈ sortJobsByNcpus ws) : j ∈ ws := by
  induction ws with
  | nil => simp [sortJobsByNcpus] at h
  | cons x xs ih =>
    rw [sortJobsByNcpus] at h
    rcases insertJobByNcpus_mem h with h1 | h1
    · exact h1 ▸ List.mem_cons_self x xs
    · exact List.mem_cons_of_mem x (ih h1)


theorem firstFitQueue_parts (cap : Int) (ws : List Job) :
    (firstFitQueue cap ws).1.length + (firstFitQueue cap ws).2.1.length =
        ws.length ∧
      ∀ j ∈ (firstFitQueue cap ws).1, j ∈ ws := by
  induction ws with
  | nil => exact ⟨rfl, fun j h => h⟩
  | cons x xs ih =>
    rw [firstFitQueue]
    rcases hfq : firstFitQueue cap xs with ⟨keep, recv, cap2⟩
    rw [hfq] at ih
    obtain ⟨ih1, ih2⟩ := ih
    simp only at ih1 ih2
    dsimp only
    split_ifs with h
    · refine ⟨?_, ?_⟩
      · simp only [List.length_append, List.length_cons, List.length_nil]
        omega
      · intro j hj
        exact List.mem_cons_of_mem x (ih2 j hj)
    · refine ⟨?_, ?_⟩
      · simp only [List.length_cons]
        omega
      · intro j hj
        rcases List.mem_cons.mp hj with h1 | h1
        · exact h1 ▸ List.mem_cons_self x xs
        · exact List.mem_cons_of_mem x (ih2 j h1)

theorem firstFitAll_parts : ∀ (recs : List (String × QueueRecord)) (ws : List Job),
    sumRecv (firstFitAll recs ws).1 + (firstFitAll recs ws).2.length =
        sumRecv recs + ws.length ∧
      (∀ j ∈ (firstFitAll recs ws).2, j ∈ ws) ∧
      (firstFitAll recs ws).1.map Prod.fst = recs.map Prod.fst ∧
      (firstFitAll recs ws).1.map (fun kv => (kv.2.njobq, kv.2.waiting_jobs)) =
        recs.map (fun kv => (kv.2.njobq, kv.2.waiting_jobs)) := by
  intro recs
  induction recs with
  | nil => exact fun ws => ⟨rfl, fun j h => h, rfl, rfl⟩
  | cons kv rest ih =>
    intro ws
    obtain ⟨k, v⟩ := kv
    rw [firstFitAll]
    rcases hfq : firstFitQueue v.pcpus ws with ⟨keep, recv, cap2⟩
    obtain ⟨hp1, hp2⟩ := firstFitQueue_parts v.pcpus ws
    rw [hfq] at hp1 hp2
    simp only at hp1 hp2
    rcases hfa : firstFitAll rest keep with ⟨rest', ws'⟩
    obtain ⟨ih1, ih2, ih3, ih4⟩ := ih keep
    rw [hfa] at ih1 ih2 ih3 ih4
    simp only at ih1 ih2 ih3 ih4
    dsimp only
    rw [hfa]
    dsimp only
    refine ⟨?_, ?_, ?_, ?_⟩
    · simp only [sumRecv, List.map_cons, List.sum_cons, List.length_append,
        List.length_nil] at ih1 ⊢
      omega
    · intro j hj
      exact hp2 j (ih2 j hj)
    · simp only [List.map_cons, ih3]
    · simp only [List.map_cons, ih4]

theorem dictAdjust_not_mem {α : Type} {d : List (String × α)} {k : String}
    (f : α → α) (h : dictMem d k = false) : dictAdjust d k f = d := by
  induction d with
  | nil => rfl
  | cons kv rest ih =>
    obtain ⟨k', v⟩ := kv
    rw [dictMem, dictGet?] at h
    by_cases hk : k' = k
    · rw [if_pos hk] at h
      simp at h
    · rw [if_neg hk] at h
      rw [dictAdjust, List.map_cons]
      dsimp only
      rw [if_neg hk, ← dictAdjust, ih h]

theorem dictAdjust_mem_values {α : Type} {d : List (String × α)} {k : String}
    {f : α → α} {kv' : String × α} (h : kv' ∈ dictAdjust d k f) :
    (∃ kv ∈ d, kv'.2 = kv.2) ∨ ∃ kv ∈ d, kv'.2 = f kv.2 := by
  rw [dictAdjust] at h
  obtain ⟨kv, hkv, heq⟩ := List.mem_map.mp h
  by_cases hk : kv.1 = k
  · right
    exact ⟨kv, hkv, by rw [← heq, if_pos hk]⟩
  · left
    exact ⟨kv, hkv, by rw [← heq, if_neg hk]⟩

theorem dictMem_eq_of_keys_eq {α β : Type} {d : List (String × α)}
    {d' : List (String × β)} (h : d.map Prod.fst = d'.map Prod.fst)
    (k : String) : dictMem d k = dictMem d' k := by
  have h1 := dictGet?_isSome_iff_mem_keys d k
  have h2 := dictGet?_isSome_iff_mem_keys d' k
  rw [h] at h1
  cases hb : dictMem d' k
  · cases hb' : dictMem d k
    · rfl
    · rw [h2.mpr (h1.mp hb')] at hb
      exact absurd hb (by simp)
  · exact h1.mpr (h2.mp hb)

theorem dictAdjust_sums {d : List (String × QueueRecord)} {k : String}
    {f : QueueRecord → QueueRecord}
    (hf : ∀ v, (f v).waiting_jobs.length = v.waiting_jobs.length + 1 ∧
      (f v).recv_jobs = v.recv_jobs)
    (hnd : (d.map Prod.fst).Nodup) (hmem : dictMem d k = true) :
    sumWaiting (dictAdjust d k f) = sumWaiting d + 1 ∧
      sumRecv (dictAdjust d k f) = sumRecv d := by
  induction d with
  | nil => simp [dictMem, dictGet?] at hmem
  | cons kv rest ih =>
    obtain ⟨k', v⟩ := kv
    rw [List.map_cons, List.nodup_cons] at hnd
    obtain ⟨hnotin, hndr⟩ := hnd
    rw [dictMem, dictGet?] at hmem
    rw [dictAdjust, List.map_cons]
    dsimp only
    by_cases hk : k' = k
    · subst hk
      rw [if_pos rfl, ← dictAdjust]
      have hrest : dictMem rest k' = false := by
        cases hmr : dictMem rest k'
        · rfl
        · exact absurd ((dictGet?_isSome_iff_mem_keys rest k').mp hmr) hnotin
      rw [dictAdjust_not_mem f hrest]
      constructor
      · simp only [sumWaiting, List.map_cons, List.sum_cons]
        rw [(hf v).1]
        omega
      · simp only [sumRecv, List.map_cons, List.sum_cons, (hf v).2]
    · rw [if_neg hk, ← dictAdjust]
      rw [if_neg hk] at hmem
      obtain ⟨i1, i2⟩ := ih hndr hmem
      constructor
      · simp only [sumWaiting, List.map_cons, List.sum_cons] at i1 ⊢
        omega
      · simp only [sumRecv, List.map_cons, List.sum_cons] at i2 ⊢
        omega

theorem dictInsert_keys_mem {α : Type} (d : List (String × α)) (k : String)
    (v : α) (x : String) :
    x ∈ (dictInsert d k v).map Prod.fst ↔ x ∈ d.map Prod.fst ∨ x = k := by
  induction d with
  | nil => simp [dictInsert]
  | cons kv rest ih =>
    obtain ⟨k', v'⟩ := kv
    rw [dictInsert]
    by_cases hk : k' = k
    · subst hk
      rw [if_pos rfl]
      simp only [List.map_cons, List.mem_cons]
      tauto
    · rw [if_neg hk]
      simp only [List.map_cons, List.mem_cons, ih]
      tauto

theorem dictInsert_keys_nodup {α : Type} {d : List (String × α)} {k : String}
    {v : α} (h : (d.map Prod.fst).Nodup) :
    ((dictInsert d k v).map Prod.fst).Nodup := by
  induction d with
  | nil => simp [dictInsert]
  | cons kv rest ih =>
    obtain ⟨k', v'⟩ := kv
    rw [List.map_cons, List.nodup_cons] at h
    obtain ⟨hnotin, hnd⟩ := h
    rw [dictInsert]
    by_cases hk : k' = k
    · rw [if_pos hk, List.map_cons, List.nodup_cons]
      exact ⟨hnotin, hnd⟩
    · rw [if_neg hk, List.map_cons, List.nodup_cons]
      refine ⟨?_, ih hnd⟩
      intro hx
      rcases (dictInsert_keys_mem rest k v k').mp hx with h1 | h1
      · exact hnotin h1
      · exact hk h1

theorem dictInsert_dictMem {α : Type} (d : List (String × α)) (k : String)
    (v : α) (x : String) :
    dictMem (dictInsert d k v) x = (dictMem d x || (x == k)) := by
  have h1 := dictGet?_isSome_iff_mem_keys (dictInsert d k v) x
  have h2 := dictGet?_isSome_iff_mem_keys d x
  have h3 := dictInsert_keys_mem d k v x
  cases hb : (dictMem d x || (x == k))
  · cases hb' : dictMem (dictInsert d k v) x
    · rfl
    · rcases h3.mp (h1.mp hb') with hc | hc
      · rw [h2.mpr hc] at hb
        exact absurd hb (by simp)
      · rw [hc] at hb
        simp at hb
  · rcases Bool.or_eq_true_iff.mp hb with hc | hc
    · exact h1.mpr (h3.mpr (Or.inl (h2.mp hc)))
    · exact h1.mpr (h3.mpr (Or.inr (by simpa using hc)))

theorem dictInsert_values {α : Type} {d : List (String × α)} {k : String}
    {v : α} {kv' : String × α} (h : kv' ∈ dictInsert d k v) :
    kv' ∈ d ∨ kv'.2 = v := by
  induction d with
  | nil =>
    rw [dictInsert, List.mem_singleton] at h
    exact Or.inr (by rw [h])
  | cons kv rest ih =>
    obtain ⟨k', v'⟩ := kv
    rw [dictInsert] at h
    split_ifs at h with hk
    · rcases List.mem_cons.mp h with h1 | h1
      · exact Or.inr (by rw [h1])
      · exact Or.inl (List.mem_cons_of_mem _ h1)
    · rcases List.mem_cons.mp h with h1 | h1
      · exact Or.inl (h1 ▸ List.mem_cons_self _ _)
      · rcases ih h1 with h2 | h2
        · exact Or.inl (List.mem_cons_of_mem _ h2)
        · exact Or.inr h2

theorem sums_zero_of_empty {d : List (String × QueueRecord)}
    (h : ∀ kv ∈ d, kv.2.recv_jobs = [] ∧ kv.2.waiting_jobs = []) :
    sumRecv d = 0 ∧ sumWaiting d = 0 := by
  constructor
  · rw [sumRecv]
    apply List.sum_eq_zero
    intro x hx
    obtain ⟨kv, hkv, he⟩ := List.mem_map.mp hx
    rw [← he, (h kv hkv).1]
    rfl
  · rw [sumWaiting]
    apply List.sum_eq_zero
    intro x hx
    obtain ⟨kv, hkv, he⟩ := List.mem_map.mp hx
    rw [← he, (h kv hkv).2]
    rfl

theorem sumWaiting_congr_pairs {d d' : List (String × QueueRecord)}
    (h : d.map (fun kv => (kv.2.njobq, kv.2.waiting_jobs)) =
      d'.map (fun kv => (kv.2.njobq, kv.2.waiting_jobs))) :
    sumWaiting d = sumWaiting d' := by
  rw [sumWaiting, sumWaiting]
  have h2 := congrArg (List.map (fun p : Nat × List Job => p.2.length)) h
  rw [List.map_map, List.map_map] at h2
  exact congrArg List.sum h2

theorem sumSizes_recv (d : List (String × QueueRecord)) :
    sumSizes (d.map (fun kv => kv.2.recv_jobs)) = sumRecv d := by
  rw [sumSizes, sumRecv, List.map_map]
  rfl

theorem foldl_step_keys_values
    {step : List (String × QueueRecord) → Job → List (String × QueueRecord)}
    (hstep : ∀ recs j, (step recs j).map Prod.fst = recs.map Prod.fst ∧
      ∀ kv ∈ step recs j, ∃ kv₀ ∈ recs,
        kv.2.recv_jobs = kv₀.2.recv_jobs ∧ kv.2.waiting_jobs = kv₀.2.waiting_jobs) :
    ∀ (js : List Job) (recs : List (String × QueueRecord)),
    ((js.foldl step recs).map Prod.fst = recs.map Prod.fst) ∧
      ∀ kv ∈ js.foldl step recs, ∃ kv₀ ∈ recs,
        kv.2.recv_jobs = kv₀.2.recv_jobs ∧ kv.2.waiting_jobs = kv₀.2.waiting_jobs := by
  intro js
  induction js with
  | nil => exact fun recs => ⟨rfl, fun kv hkv => ⟨kv, hkv, rfl, rfl⟩⟩
  | cons j js ih =>
    intro recs
    rw [List.foldl_cons]
    obtain ⟨h1, h2⟩ := hstep recs j
    obtain ⟨i1, i2⟩ := ih (step recs j)
    refine ⟨by rw [i1, h1], ?_⟩
    intro kv hkv
    obtain ⟨kv1, hkv1, e1, e2⟩ := i2 kv hkv
    obtain ⟨kv0, hkv0, e3, e4⟩ := h2 kv1 hkv1
    exact ⟨kv0, hkv0, e1.trans e3, e2.trans e4⟩

theorem buildRecords_inv (qi : List (String × Queue)) (qs : List String) :
    ∀ (d0 d : List (String × QueueRecord)),
    qs.foldlM (fun (d : List (String × QueueRecord)) (q : String) =>
        match dictGet? qi q with
        | some qu => Except.ok (dictInsert d q (QueueRecord.mk 0 qu.pcpus [] []))
        | none => Except.error PyErr.keyError) d0 = .ok d →
    ((d0.map Prod.fst).Nodup → (d.map Prod.fst).Nodup) ∧
      (∀ x, dictMem d x = (dictMem d0 x || qs.contains x)) ∧
      ((∀ kv ∈ d0, kv.2.recv_jobs = [] ∧ kv.2.waiting_jobs = []) →
        ∀ kv ∈ d, kv.2.recv_jobs = [] ∧ kv.2.waiting_jobs = []) := by
  induction qs with
  | nil =>
    intro d0 d h
    simp only [List.foldlM_nil, pure, Except.pure, Except.ok.injEq] at h
    subst h
    refine ⟨fun hh => hh, fun x => by simp [List.contains], fun hh => hh⟩
  | cons q qs ih =>
    intro d0 d h
    rw [List.foldlM_cons] at h
    rcases hq : dictGet? qi q with _ | qu <;> rw [hq] at h <;> dsimp only at h
    · exact Except.noConfusion h
    · simp only [bind, Except.bind] at h
      obtain ⟨i1, i2, i3⟩ := ih _ d h
      refine ⟨?_, ?_, ?_⟩
      · intro hnd
        exact i1 (dictInsert_keys_nodup hnd)
      · intro x
        rw [i2 x, dictInsert_dictMem, List.contains_cons, Bool.or_assoc]
      · intro hall
        apply i3
        intro kv hkv
        rcases dictInsert_values hkv with h1 | h1
        · exact hall kv h1
        · rw [h1]
          exact ⟨rfl, rfl⟩

theorem distributeWaiting_inv :
    ∀ (ws : List Job) (recs : List (String × QueueRecord)),
    (recs.map Prod.fst).Nodup →
    (∀ j ∈ ws, ∃ q, j.queue = some q ∧ dictMem recs q = true) →
    sumWaiting (distributeWaiting ws recs) = sumWaiting recs + ws.length ∧
      sumRecv (distributeWaiting ws recs) = sumRecv recs ∧
      (distributeWaiting ws recs).map Prod.fst = recs.map Prod.fst := by
  intro ws
  induction ws with
  | nil => exact fun recs _ _ => ⟨rfl, rfl, rfl⟩
  | cons j rest ih =>
    intro recs hnd hmem
    obtain ⟨q, hq, hqmem⟩ := hmem j (List.mem_cons_self j rest)
    rw [distributeWaiting, hq]
    dsimp only
    rw [if_pos hqmem]
    have hf : ∀ v : QueueRecord,
        ({ v with njobq := v.njobq + 1, waiting_jobs := v.waiting_jobs ++ [j]
          } : QueueRecord).waiting_jobs.length = v.waiting_jobs.length + 1 ∧
        ({ v with njobq := v.njobq + 1, waiting_jobs := v.waiting_jobs ++ [j]
          } : QueueRecord).recv_jobs = v.recv_jobs := by
      intro v
      exact ⟨by simp, rfl⟩
    have hadj := dictAdjust_sums hf hnd hqmem
    have hkeys := dictAdjust_keys recs q (fun v =>
      { v with njobq := v.njobq + 1, waiting_jobs := v.waiting_jobs ++ [j] })
    have hnd' := hkeys ▸ hnd
    have hmem' : ∀ j' ∈ rest, ∃ q', j'.queue = some q' ∧
        dictMem (dictAdjust recs q (fun v =>
          { v with njobq := v.njobq + 1, waiting_jobs := v.waiting_jobs ++ [j] })) q' = true := by
      intro j' hj'
      obtain ⟨q', hq', hm'⟩ := hmem j' (List.mem_cons_of_mem j hj')
      exact ⟨q', hq', by rw [dictMem_eq_of_keys_eq hkeys]; exact hm'⟩
    obtain ⟨i1, i2, i3⟩ := ih _ hnd' hmem'
    refine ⟨?_, by rw [i2, hadj.2], by rw [i3, hkeys]⟩
    rw [i1, hadj.1, List.length_cons]
    omega

theorem collectDonors_ok_nil {recs : List (String × QueueRecord)}
    {t : Nat} {d : List Job} (h : collectDonors recs t = .ok d) : d = [] := by
  induction recs with
  | nil =>
    rw [collectDonors] at h
    cases h
    rfl
  | cons kv rest ih =>
    obtain ⟨k, v⟩ := kv
    rw [collectDonors] at h
    split_ifs at h with hc
    exact ih h

theorem acceptFromDonor_nil :
    ∀ (recs : List (String × QueueRecord)) (t : Nat),
    acceptFromDonor recs t [] = (recs, []) := by
  intro recs
  induction recs with
  | nil => exact fun t => rfl
  | cons kv rest ih =>
    intro t
    obtain ⟨k, v⟩ := kv
    rw [acceptFromDonor]
    dsimp only
    split_ifs with hc
    · rw [List.length_nil, Nat.min_zero, List.take_zero, List.drop_zero, ih t]
      have hv : { v with recv_jobs := v.recv_jobs ++ [] } = v := by
        cases v
        simp
      rw [hv]
    · rw [ih t]

theorem balanceStep_props (recs : List (String × QueueRecord)) (j : Job) :
    ((if j.state == "R" then
        match j.queue with
        | some q =>
          if dictMem recs q then
            dictAdjust recs q (fun v => { v with pcpus := v.pcpus - j.ncpus })
          else recs
        | none => recs
      else recs).map Prod.fst = recs.map Prod.fst) ∧
      ∀ kv ∈ (if j.state == "R" then
        match j.queue with
        | some q =>
          if dictMem recs q then
            dictAdjust recs q (fun v => { v with pcpus := v.pcpus - j.ncpus })
          else recs
        | none => recs
      else recs), ∃ kv₀ ∈ recs,
        kv.2.recv_jobs = kv₀.2.recv_jobs ∧ kv.2.waiting_jobs = kv₀.2.waiting_jobs := by
  split_ifs with hs
  · rcases hjq : j.queue with _ | q
    · exact ⟨rfl, fun kv hkv => ⟨kv, hkv, rfl, rfl⟩⟩
    · dsimp only
      split_ifs with hm
      · refine ⟨dictAdjust_keys recs q _, ?_⟩
        intro kv hkv
        rcases dictAdjust_mem_values hkv with ⟨kv0, hkv0, he⟩ | ⟨kv0, hkv0, he⟩
        · exact ⟨kv0, hkv0, by rw [he], by rw [he]⟩
        · exact ⟨kv0, hkv0, by rw [he], by rw [he]⟩
      · exact ⟨rfl, fun kv hkv => ⟨kv, hkv, rfl, rfl⟩⟩
  · exact ⟨rfl, fun kv hkv => ⟨kv, hkv, rfl, rfl⟩⟩

/-- C2: amended form. Whenever `scheduler_balance` completes a cycle without
an exception, the minimized per-queue lists hold exactly the jobs the
first-fit pass moved into `recv_jobs`, and received plus still-waiting jobs
together account for every queued job of the configured queues; the original
claim fails because jobs left unplaced by first-fit stay in `waiting_jobs`
(see the companion counterexample). -/
theorem scheduler_balance_conservation (jobs : List Job) (args : Args)
    (out : SBOut) (h : (scheduler_balance jobs args).2 = .ok out) :
    sumSizes (out.finalLists.map Prod.snd) = sumRecv out.records ∧
    sumRecv out.records + sumWaiting out.records =
      ((jobs.filter (fun j => jobQueueIn j args.queue)).filter
        (fun j => j.state == "Q")).length := by
  have h' : scheduler_balance_run jobs args = .ok out := h
  rw [scheduler_balance_run] at h'
  dsimp only at h'
  set fjobs := jobs.filter (fun j => jobQueueIn j args.queue) with hfj
  split at h'
  next e hrec0 => exact Except.noConfusion h'
  next records0 hrec0 =>
  obtain ⟨b1, b2, b3⟩ := buildRecords_inv args.queue_info args.queue [] records0 hrec0
  have hnd0 : (records0.map Prod.fst).Nodup := b1 (by simp)
  have hemp0 : ∀ kv ∈ records0, kv.2.recv_jobs = [] ∧ kv.2.waiting_jobs = [] :=
    b3 (fun kv hkv => absurd hkv (List.not_mem_nil kv))
  obtain ⟨hkeys1, hvals1⟩ := foldl_step_keys_values
    (fun recs j => balanceStep_props recs j) fjobs records0
  set records1 := fjobs.foldl (fun recs j =>
      if j.state == "R" then
        match j.queue with
        | some q =>
          if dictMem recs q then
            dictAdjust recs q (fun v => { v with pcpus := v.pcpus - j.ncpus })
          else recs
        | none => recs
      else recs) records0 with hr1
  set waiting := sortJobsByNcpus (fjobs.filter (fun j => j.state == "Q")) with hw
  have hemp1 : ∀ kv ∈ records1, kv.2.recv_jobs = [] ∧ kv.2.waiting_jobs = [] := by
    intro kv hkv
    obtain ⟨kv0, hkv0, e1, e2⟩ := hvals1 kv hkv
    rw [e1, e2]
    exact hemp0 kv0 hkv0
  split at h'
  next hq0 => exact Except.noConfusion h'
  next hq0 =>
  rcases hff : firstFitAll records1 waiting with ⟨records2, leftover⟩
  rw [hff] at h'
  dsimp only at h'
  obtain ⟨ff1, ff2, ff3, ff4⟩ := firstFitAll_parts records1 waiting
  rw [hff] at ff1 ff2 ff3 ff4
  simp only at ff1 ff2 ff3 ff4
  obtain ⟨hr1z, hw1z⟩ := sums_zero_of_empty hemp1
  have hw2z : sumWaiting records2 = 0 := by
    rw [sumWaiting_congr_pairs ff4, hw1z]
  have hnd1 : (records1.map Prod.fst).Nodup := by
    rw [hkeys1]
    exact hnd0
  have hnd2 : (records2.map Prod.fst).Nodup := by
    rw [ff3]
    exact hnd1
  have hmemd : ∀ j ∈ leftover, ∃ q, j.queue = some q ∧ dictMem records2 q = true := by
    intro j hj
    have hjw : j ∈ waiting := ff2 j hj
    rw [hw] at hjw
    have hjf : j ∈ fjobs.filter (fun j => j.state == "Q") := sortJobsByNcpus_mem hjw
    have hjfj : j ∈ fjobs := List.mem_of_mem_filter hjf
    have hjq : jobQueueIn j args.queue = true := by
      rw [hfj] at hjfj
      exact (List.mem_filter.mp hjfj).2
    rw [jobQueueIn] at hjq
    rcases hq : j.queue with _ | q
    · rw [hq] at hjq
      exact Bool.noConfusion hjq
    · rw [hq] at hjq
      refine ⟨q, rfl, ?_⟩
      rw [dictMem_eq_of_keys_eq ff3, dictMem_eq_of_keys_eq hkeys1, b2 q]
      rw [show dictMem ([] : List (String × QueueRecord)) q = false from rfl,
        Bool.false_or]
      exact hjq
  obtain ⟨d1, d2, d3⟩ := distributeWaiting_inv leftover records2 hnd2 hmemd
  set records3 := distributeWaiting leftover records2 with hr3
  split at h'
  next e hdon => exact Except.noConfusion h'
  next donor hdon =>
  have hdnil : donor = [] := collectDonors_ok_nil hdon
  subst hdnil
  rw [acceptFromDonor_nil] at h'
  dsimp only at h'
  rw [if_neg (fun hc : ([] : List Job) ≠ [] => hc rfl)] at h'
  split at h'
  next e hmin => exact Except.noConfusion h'
  next newlists hmin =>
  have hnd3 : (records3.map Prod.fst).Nodup := by
    rw [d3]
    exact hnd2
  obtain ⟨m1, m2⟩ := minimize_ok_sum hnd3 (by simp) hmin
  have hout := Except.ok.inj h'
  subst hout
  dsimp only
  constructor
  · have hle : newlists.length ≤ (records3.map Prod.fst).length := le_of_eq m2
    rw [List.map_snd_zip _ _ hle, m1]
    exact sumSizes_recv records3
  · have hwlen : waiting.length =
        (fjobs.filter (fun j => j.state == "Q")).length := by
      rw [hw]
      exact sortJobsByNcpus_length _
    rw [d2, d1, hw2z]
    omega

/-- The cycle output produced by `scheduler_balance [cjA1] cargsA`: the single
1-cpu job does not fit the 0-cpu queue A, stays grouped under A's waiting
list, and the minimizer returns the (empty) received lists unchanged. -/
def cSBOutA : SBOut :=
  ⟨[("A", ⟨1, 0, [cjA1], []⟩)], [("A", [])], []⟩

/-- Witness for the amended C2 theorem: a concrete cycle that completes
without an exception and satisfies both conservation equations. -/
theorem scheduler_balance_conservation_witness :
    (scheduler_balance [cjA1] cargsA).2 = .ok cSBOutA ∧
      (sumSizes (cSBOutA.finalLists.map Prod.snd) = sumRecv cSBOutA.records ∧
        sumRecv cSBOutA.records + sumWaiting cSBOutA.records =
          (([cjA1].filter (fun j => jobQueueIn j cargsA.queue)).filter
            (fun j => j.state == "Q")).length) :=
  ⟨by decide, scheduler_balance_conservation [cjA1] cargsA cSBOutA (by decide)⟩
